import Mathlib

/-!
Verification development for the `4thWaveAI/feeds` aggregation scripts
(`scripts/build_area_feeds.py`, `scripts/build_boston_dynamics_feed.py`,
`scripts/utils_xml.py`).

Python strings are modelled as `List Char` (`Str`); bytes as `Nat` (< 256).
The `urllib.parse` functions the scripts call are translated from the
CPython 3.11 sources, since their behaviour is the de-facto semantics of
`canon_url` and friends.  Machine integers never overflow in the modelled
code paths, so `Nat`/`Int` are used directly.
-/

/-- Python `str`, modelled as a list of unicode scalar values. -/
abbrev Str := List Char

/-- Turn a Lean string literal into the `Str` model. -/
def pyStr (s : String) : Str := s.data

/-- ASCII lower-casing of one character.  This is the fragment of Python
`str.lower` exercised by the scripts: every string the code lower-cases is
compared against ASCII-only tables, so only the `A`–`Z` mapping matters. -/
def pyLowerChar (c : Char) : Char :=
  if 'A' ≤ c ∧ c ≤ 'Z' then Char.ofNat (c.toNat + 32) else c

/-- Python `str.lower` (ASCII fragment, see `pyLowerChar`). -/
def pyLower (s : Str) : Str := s.map pyLowerChar

/-- Python `needle in haystack` for strings (substring containment). -/
def substrOf (n : Str) : Str → Bool
  | [] => n.isEmpty
  | c :: h => n.isPrefixOf (c :: h) || substrOf n h

/-- Python `s.split(sep, 1)`: split at the first occurrence of a character,
`none` when the character does not occur. -/
def splitOnce (sep : Char) : Str → Option (Str × Str)
  | [] => none
  | c :: s =>
      if c = sep then some ([], s)
      else match splitOnce sep s with
        | none => none
        | some (a, b) => some (c :: a, b)

/-- Position of the first occurrence of a character (Python `str.find`,
`none` for `-1`). -/
def pyFind (sep : Char) : Str → Option Nat
  | [] => none
  | c :: s =>
      if c = sep then some 0
      else (pyFind sep s).map (· + 1)

theorem splitOnce_snd_length (sep : Char) :
    ∀ t a b, splitOnce sep t = some (a, b) → b.length < t.length := by
  intro t
  induction t with
  | nil => intro a b h; simp [splitOnce] at h
  | cons c u ih =>
      intro a b h
      simp only [splitOnce] at h
      split at h
      · cases h; simp
      · cases hu : splitOnce sep u with
        | none => rw [hu] at h; cases h
        | some p =>
            rw [hu] at h
            cases p with
            | mk a2 b2 =>
                have hlen := ih a2 b2 hu
                cases h
                simp only [List.length_cons]
                omega

/-- The loop of `str.split(sep)`.  Each round removes at least one
character, so `s.length` rounds of fuel always suffice; the fuel makes the
recursion structural (hence kernel-evaluable). -/
def pySplitGo (sep : Char) : Nat → Str → List Str
  | 0, s => [s]
  | fuel + 1, s =>
      match splitOnce sep s with
      | none => [s]
      | some (a, b) => a :: pySplitGo sep fuel b

/-- Python `str.split(sep)` for a one-character separator. -/
def pySplit (sep : Char) (s : Str) : List Str := pySplitGo sep s.length s

theorem pySplitGo_fuel (sep : Char) :
    ∀ (f1 f2 : Nat) (s : Str), s.length ≤ f1 → s.length ≤ f2 →
    pySplitGo sep f1 s = pySplitGo sep f2 s := by
  intro f1
  induction f1 with
  | zero =>
      intro f2 s h1 h2
      have hs : s = [] := List.length_eq_zero.mp (Nat.le_zero.mp h1)
      subst hs
      cases f2 with
      | zero => rfl
      | succ g => rfl
  | succ f ih =>
      intro f2 s h1 h2
      cases f2 with
      | zero =>
          have hs : s = [] := List.length_eq_zero.mp (Nat.le_zero.mp h2)
          subst hs
          rfl
      | succ g =>
          cases hsp : splitOnce sep s with
          | none => simp only [pySplitGo, hsp]
          | some p =>
              cases p with
              | mk a b =>
                  have hlen := splitOnce_snd_length sep s a b hsp
                  simp only [pySplitGo, hsp]
                  exact congrArg (a :: ·)
                    (ih g b (by omega) (by omega))

/-- Python `sep.join(parts)` for string lists. -/
def pyJoin (sep : Str) (parts : List Str) : Str :=
  match parts with
  | [] => []
  | [p] => p
  | p :: rest => p ++ sep ++ pyJoin sep rest

/-- An item record as produced by `parse_article` and consumed by the
serializers (a Python dict with these keys).  The Boston Dynamics variant
produces only the first five fields; its serializer reads no others. -/
structure Item where
  title : Str
  link : Str
  guid : Str
  description : Str
  pubDate : Option Str := none
  image : Option Str := none
  video : Option Str := none
  category : Option Str := none
deriving DecidableEq, Repr

/-- The de-dup-by-guid loop of `main` (`build_area_feeds.py`):
`seen, unique = set(), []`, keep an item iff its guid was not seen. -/
def dedupGo (seen : List Str) : List Item → List Item
  | [] => []
  | it :: rest =>
      if it.guid ∈ seen then dedupGo seen rest
      else it :: dedupGo (it.guid :: seen) rest

/-- De-dup by guid, first occurrence wins (the pass `main` runs on the
collected list, and again for the `all`/`videos`/`tech-leaders` feeds). -/
def dedupByGuid (l : List Item) : List Item := dedupGo [] l

/-- The `(ext, mime-type)` tuple `guess_mime` iterates, in source order. -/
def mimeTable : List (Str × Str) :=
  [(pyStr ".jpg", pyStr "image/jpeg"), (pyStr ".jpeg", pyStr "image/jpeg"),
   (pyStr ".png", pyStr "image/png"), (pyStr ".gif", pyStr "image/gif"),
   (pyStr ".webp", pyStr "image/webp"),
   (pyStr ".mp4", pyStr "video/mp4"), (pyStr ".webm", pyStr "video/webm"),
   (pyStr ".mov", pyStr "video/quicktime"), (pyStr ".m4v", pyStr "video/x-m4v"),
   (pyStr ".avi", pyStr "video/x-msvideo"), (pyStr ".mkv", pyStr "video/x-matroska")]

/-- The loop body of `guess_mime`: first table entry whose extension occurs
as a substring (`ext in u`) wins. -/
def mimeScan : List (Str × Str) → Str → Str → Str
  | [], _, dflt => dflt
  | (ext, mt) :: rest, ul, dflt =>
      if substrOf ext ul then mt else mimeScan rest ul dflt

/-- `guess_mime(u, default)` from `build_area_feeds.py`: lower-case the URL
and return the first matching table entry, else the default. -/
def guess_mime (u : Str) (dflt : Str) : Str :=
  mimeScan mimeTable (pyLower u) dflt


/-! ## `urllib.parse` model (translated from CPython 3.11) -/

/-- UTF-8 encoding of one unicode scalar value. -/
def utf8EncodeChar (c : Char) : List Nat :=
  let n := c.toNat
  if n < 0x80 then [n]
  else if n < 0x800 then [0xC0 + n / 64, 0x80 + n % 64]
  else if n < 0x10000 then
    [0xE0 + n / 4096, 0x80 + (n / 64) % 64, 0x80 + n % 64]
  else
    [0xF0 + n / 0x40000, 0x80 + (n / 4096) % 64, 0x80 + (n / 64) % 64,
     0x80 + n % 64]

/-- Python `str.encode("utf-8")`. -/
def utf8Encode (s : Str) : List Nat := s.flatMap utf8EncodeChar

/-- The U+FFFD replacement character (`errors="replace"`). -/
def replChar : Char := Char.ofNat 0xFFFD

/-- UTF-8 decoding with `errors="replace"`: an invalid or truncated
sequence contributes one replacement character for its maximal valid
prefix and decoding resumes at the offending byte. -/
def utf8Decode : List Nat → Str
  | [] => []
  | b :: bs =>
      if b < 0x80 then Char.ofNat b :: utf8Decode bs
      else if 0xC2 ≤ b ∧ b ≤ 0xDF then
        match bs with
        | [] => [replChar]
        | b2 :: bs2 =>
            if 0x80 ≤ b2 ∧ b2 ≤ 0xBF then
              Char.ofNat ((b - 0xC0) * 64 + (b2 - 0x80)) :: utf8Decode bs2
            else replChar :: utf8Decode (b2 :: bs2)
      else if 0xE0 ≤ b ∧ b ≤ 0xEF then
        match bs with
        | [] => [replChar]
        | b2 :: bs2 =>
            if (if b = 0xE0 then 0xA0 ≤ b2 ∧ b2 ≤ 0xBF
                else if b = 0xED then 0x80 ≤ b2 ∧ b2 ≤ 0x9F
                else 0x80 ≤ b2 ∧ b2 ≤ 0xBF) then
              match bs2 with
              | [] => [replChar]
              | b3 :: bs3 =>
                  if 0x80 ≤ b3 ∧ b3 ≤ 0xBF then
                    Char.ofNat ((b - 0xE0) * 4096 + (b2 - 0x80) * 64 +
                      (b3 - 0x80)) :: utf8Decode bs3
                  else replChar :: utf8Decode (b3 :: bs3)
            else replChar :: utf8Decode (b2 :: bs2)
      else if 0xF0 ≤ b ∧ b ≤ 0xF4 then
        match bs with
        | [] => [replChar]
        | b2 :: bs2 =>
            if (if b = 0xF0 then 0x90 ≤ b2 ∧ b2 ≤ 0xBF
                else if b = 0xF4 then 0x80 ≤ b2 ∧ b2 ≤ 0x8F
                else 0x80 ≤ b2 ∧ b2 ≤ 0xBF) then
              match bs2 with
              | [] => [replChar]
              | b3 :: bs3 =>
                  if 0x80 ≤ b3 ∧ b3 ≤ 0xBF then
                    match bs3 with
                    | [] => [replChar]
                    | b4 :: bs4 =>
                        if 0x80 ≤ b4 ∧ b4 ≤ 0xBF then
                          Char.ofNat ((b - 0xF0) * 0x40000 +
                            (b2 - 0x80) * 4096 + (b3 - 0x80) * 64 +
                            (b4 - 0x80)) :: utf8Decode bs4
                        else replChar :: utf8Decode (b4 :: bs4)
                  else replChar :: utf8Decode (b3 :: bs3)
            else replChar :: utf8Decode (b2 :: bs2)
      else replChar :: utf8Decode bs
termination_by bs => bs.length
decreasing_by all_goals simp_arith [*]

/-- `urllib.parse._ALWAYS_SAFE`: bytes never percent-encoded by `quote`. -/
def ALWAYS_SAFE (b : Nat) : Bool :=
  (0x41 ≤ b && b ≤ 0x5A) || (0x61 ≤ b && b ≤ 0x7A) ||
  (0x30 ≤ b && b ≤ 0x39) || b == 0x5F || b == 0x2E || b == 0x2D || b == 0x7E

/-- Upper-case hex digit of a value < 16 (`'%{:02X}'`). -/
def hexUpper (n : Nat) : Char :=
  if n < 10 then Char.ofNat (48 + n) else Char.ofNat (55 + n)

/-- One byte of `quote` output (`_Quoter.__missing__`). -/
def quoteByte (safe : List Nat) (b : Nat) : Str :=
  if ALWAYS_SAFE b || b ∈ safe then [Char.ofNat b]
  else ['%', hexUpper (b / 16), hexUpper (b % 16)]

/-- `urllib.parse.quote` on a `str` (UTF-8, strict): percent-encode every
byte of the UTF-8 encoding outside the safe sets. -/
def quote (safe : List Nat) (s : Str) : Str :=
  (utf8Encode s).flatMap (quoteByte safe)

/-- `urllib.parse.quote_plus` with `safe=''` (as `urlencode` calls it). -/
def quote_plus (s : Str) : Str :=
  if ' ' ∈ s then (quote [0x20] s).map (fun c => if c = ' ' then '+' else c)
  else quote [] s

/-- Numeric value of a hex digit from `_hexdig = "0123456789abcdefABCDEF"`. -/
def hexVal (c : Char) : Option Nat :=
  if '0' ≤ c ∧ c ≤ '9' then some (c.toNat - 48)
  else if 'a' ≤ c ∧ c ≤ 'f' then some (c.toNat - 87)
  else if 'A' ≤ c ∧ c ≤ 'F' then some (c.toNat - 55)
  else none

/-- ASCII bytes of an all-ASCII string (how `unquote_to_bytes` encodes the
chunks `unquote` hands it). -/
def asciiBytes (s : Str) : List Nat := s.map (·.toNat)

/-- `urllib.parse.unquote_to_bytes` on an ASCII chunk: split on `%`, turn
each two-hex-digit prefix into a byte, leave malformed escapes alone. -/
def unquoteToBytes (s : Str) : List Nat :=
  match pySplit '%' s with
  | [] => []
  | first :: rest =>
      asciiBytes first ++ rest.flatMap fun item =>
        match item with
        | c1 :: c2 :: tail =>
            match hexVal c1, hexVal c2 with
            | some h1, some h2 => (h1 * 16 + h2) :: asciiBytes tail
            | _, _ => 0x25 :: asciiBytes item
        | _ => 0x25 :: asciiBytes item

/-- Is the character an ASCII character (`_asciire` class `[\x00-\x7f]`)? -/
def isAsciiChar (c : Char) : Bool := c.toNat ≤ 0x7F

/-- Split off the maximal leading ASCII run (one `_asciire` match). -/
def asciiRun : Str → Str × Str
  | [] => ([], [])
  | c :: rest =>
      if isAsciiChar c then
        let p := asciiRun rest
        (c :: p.1, p.2)
      else ([], c :: rest)

theorem asciiRun_snd_length (s : Str) : (asciiRun s).2.length ≤ s.length := by
  induction s with
  | nil => simp [asciiRun]
  | cons c rest ih =>
      simp only [asciiRun]
      split
      · simpa using Nat.le_succ_of_le ih
      · simp

/-- The loop of `unquote`: maximal ASCII runs are percent-decoded and
UTF-8-decoded (`errors="replace"`); other characters pass through. -/
def unquoteGo : Str → Str
  | [] => []
  | c :: rest =>
      if isAsciiChar c then
        utf8Decode (unquoteToBytes (c :: (asciiRun rest).1)) ++
          unquoteGo (asciiRun rest).2
      else c :: unquoteGo rest
termination_by s => s.length
decreasing_by
  all_goals simp only [List.length_cons]
  all_goals first
    | exact Nat.lt_succ_of_le (asciiRun_snd_length _)
    | omega

/-- `urllib.parse.unquote` (UTF-8, `errors="replace"`). -/
def unquote (s : Str) : Str :=
  if '%' ∈ s then unquoteGo s else s

/-- `urllib.parse.unquote_plus`. -/
def unquote_plus (s : Str) : Str :=
  unquote (s.map fun c => if c = '+' then ' ' else c)

/-- `urllib.parse.parse_qsl(qs, keep_blank_values=True)` (default `&`
separator; the other keyword arguments keep their defaults). -/
def parse_qsl (qs : Str) : List (Str × Str) :=
  if qs = [] then []
  else (pySplit '&' qs).filterMap fun nv =>
    if nv = [] then none
    else some (match splitOnce '=' nv with
      | none => (unquote_plus nv, [])
      | some (n, v) => (unquote_plus n, unquote_plus v))

/-- `urllib.parse.urlencode` on a list of string pairs (default
`quote_via=quote_plus`, `safe=''`). -/
def urlencode (q : List (Str × Str)) : Str :=
  pyJoin (pyStr "&") (q.map fun kv => quote_plus kv.1 ++ '=' :: quote_plus kv.2)

/-- `urllib.parse.scheme_chars`. -/
def schemeChar (c : Char) : Bool :=
  ('a' ≤ c && c ≤ 'z') || ('A' ≤ c && c ≤ 'Z') || ('0' ≤ c && c ≤ '9') ||
  c == '+' || c == '-' || c == '.'

/-- Is the character an ASCII letter (`url[0].isascii() and url[0].isalpha()`)? -/
def isAsciiAlpha (c : Char) : Bool :=
  ('a' ≤ c && c ≤ 'z') || ('A' ≤ c && c ≤ 'Z')

/-- `urllib.parse.uses_params`. -/
def usesParams : List Str :=
  [pyStr "", pyStr "ftp", pyStr "hdl", pyStr "prospero", pyStr "http",
   pyStr "imap", pyStr "https", pyStr "shttp", pyStr "rtsp", pyStr "rtsps",
   pyStr "rtspu", pyStr "sip", pyStr "sips", pyStr "mms", pyStr "sftp",
   pyStr "tel"]

/-- `urllib.parse.uses_netloc`. -/
def usesNetloc : List Str :=
  [pyStr "", pyStr "ftp", pyStr "http", pyStr "gopher", pyStr "nntp",
   pyStr "telnet", pyStr "imap", pyStr "wais", pyStr "file", pyStr "mms",
   pyStr "https", pyStr "shttp", pyStr "snews", pyStr "prospero",
   pyStr "rtsp", pyStr "rtsps", pyStr "rtspu", pyStr "rsync", pyStr "svn",
   pyStr "svn+ssh", pyStr "sftp", pyStr "nfs", pyStr "git", pyStr "git+ssh",
   pyStr "ws", pyStr "wss"]

/-- `urllib.parse.uses_relative`. -/
def usesRelative : List Str :=
  [pyStr "", pyStr "ftp", pyStr "http", pyStr "gopher", pyStr "nntp",
   pyStr "imap", pyStr "wais", pyStr "file", pyStr "https", pyStr "shttp",
   pyStr "mms", pyStr "prospero", pyStr "rtsp", pyStr "rtsps", pyStr "rtspu",
   pyStr "sftp", pyStr "svn", pyStr "svn+ssh", pyStr "ws", pyStr "wss"]

/-- A WHATWG C0-control-or-space character (the `lstrip` set). -/
def isC0OrSpace (c : Char) : Bool := c.toNat ≤ 0x20

/-- `url.lstrip(_WHATWG_C0_CONTROL_OR_SPACE)`. -/
def lstripC0 (s : Str) : Str := s.dropWhile isC0OrSpace

/-- `scheme.strip(_WHATWG_C0_CONTROL_OR_SPACE)` (both ends). -/
def stripC0 (s : Str) : Str :=
  ((s.dropWhile isC0OrSpace).reverse.dropWhile isC0OrSpace).reverse

/-- Removal of `_UNSAFE_URL_BYTES_TO_REMOVE` (tab, CR, LF) everywhere. -/
def removeUnsafe (s : Str) : Str :=
  s.filter fun c => !(c == '\t' || c == '\r' || c == '\n')

/-- Is the character a netloc delimiter (`'/?#'` in `_splitnetloc`)? -/
def netlocDelim (c : Char) : Bool := c == '/' || c == '?' || c == '#'

/-- The result 5-tuple of `urlsplit`. -/
structure SplitResult where
  scheme : Str
  netloc : Str
  path : Str
  query : Str
  fragment : Str
deriving DecidableEq, Repr

/-- The scheme-detection step of `urlsplit`: if the text before the first
`:` is a syntactically valid scheme, lower-case it and strip it off. -/
def splitScheme (url : Str) (dscheme : Str) : Str × Str :=
  match pyFind ':' url with
  | some i =>
      if 0 < i ∧ (url.take 1).all isAsciiAlpha ∧ (url.take i).all schemeChar
      then (pyLower (url.take i), url.drop (i + 1))
      else (dscheme, url)
  | none => (dscheme, url)

/-- `urllib.parse.urlsplit(url, scheme, allow_fragments=True)`.

The `ValueError` for unbalanced IPv6 brackets is modelled (`.error ()`).
Two data-dependent netloc checks are not modelled and are treated as
passing: `_check_bracketed_host` (validity of a bracket-matched IPv6 /
IPvFuture literal) and `_checknetloc` (rejection of non-ASCII netlocs
whose NFKC normalization introduces separators); theorems that depend on
a netloc passing those checks carry explicit ASCII / bracket-free
hypotheses instead. -/
def urlsplitE (url0 : Str) (scheme0 : Str) : Except Unit SplitResult :=
  let url1 := removeUnsafe (lstripC0 url0)
  let dscheme := removeUnsafe (stripC0 scheme0)
  let sp := splitScheme url1 dscheme
  let scheme := sp.1
  let rest := sp.2
  if rest.take 2 = pyStr "//" then
    let after := rest.drop 2
    let netloc := after.takeWhile (fun c => !netlocDelim c)
    let rest2 := after.dropWhile (fun c => !netlocDelim c)
    if ('[' ∈ netloc ∧ ']' ∉ netloc) ∨ (']' ∈ netloc ∧ '[' ∉ netloc) then
      .error ()
    else
      let fq := match splitOnce '#' rest2 with
        | none => (rest2, ([] : Str))
        | some (a, f) => (a, f)
      let pq := match splitOnce '?' fq.1 with
        | none => (fq.1, ([] : Str))
        | some (a, q) => (a, q)
      .ok ⟨scheme, netloc, pq.1, pq.2, fq.2⟩
  else
    let fq := match splitOnce '#' rest with
      | none => (rest, ([] : Str))
      | some (a, f) => (a, f)
    let pq := match splitOnce '?' fq.1 with
      | none => (fq.1, ([] : Str))
      | some (a, q) => (a, q)
    .ok ⟨scheme, [], pq.1, pq.2, fq.2⟩

/-- Python `str.rfind` for a character. -/
def pyRFind (sep : Char) (s : Str) : Option Nat :=
  (pyFind sep s.reverse).map fun i => s.length - 1 - i

/-- `str.find(sep, start)`. -/
def pyFindFrom (sep : Char) (s : Str) (start : Nat) : Option Nat :=
  (pyFind sep (s.drop start)).map (· + start)

/-- `urllib.parse._splitparams`.  The caller (`urlparse`) only invokes it
when `';' in url`; the `i = -1` slicing Python would perform otherwise is
mirrored anyway. -/
def splitparams (u : Str) : Str × Str :=
  if '/' ∈ u then
    match pyFindFrom ';' u ((pyRFind '/' u).getD 0) with
    | none => (u, [])
    | some i => (u.take i, u.drop (i + 1))
  else
    match pyFind ';' u with
    | none => (u.take (u.length - 1), u)
    | some i => (u.take i, u.drop (i + 1))

/-- The result 6-tuple of `urlparse`. -/
structure ParseResult where
  scheme : Str
  netloc : Str
  path : Str
  params : Str
  query : Str
  fragment : Str
deriving DecidableEq, Repr

/-- `urllib.parse.urlparse(url, scheme, allow_fragments=True)`. -/
def urlparseE (url : Str) (scheme0 : Str) : Except Unit ParseResult :=
  match urlsplitE url scheme0 with
  | .error e => .error e
  | .ok sp =>
      if sp.scheme ∈ usesParams ∧ ';' ∈ sp.path then
        let pp := splitparams sp.path
        .ok ⟨sp.scheme, sp.netloc, pp.1, pp.2, sp.query, sp.fragment⟩
      else
        .ok ⟨sp.scheme, sp.netloc, sp.path, [], sp.query, sp.fragment⟩

/-- `urllib.parse.urlunsplit` (CPython 3.11 form of the netloc
condition). -/
def urlunsplit (scheme netloc url query fragment : Str) : Str :=
  let url1 :=
    if netloc ≠ [] ∨ (scheme ≠ [] ∧ scheme ∈ usesNetloc ∧ url.take 2 ≠ pyStr "//")
    then
      let u2 := if url ≠ [] ∧ url.take 1 ≠ pyStr "/" then '/' :: url else url
      pyStr "//" ++ netloc ++ u2
    else url
  let url2 := if scheme ≠ [] then scheme ++ ':' :: url1 else url1
  let url3 := if query ≠ [] then url2 ++ '?' :: query else url2
  if fragment ≠ [] then url3 ++ '#' :: fragment else url3

/-- Re-attach params to the last path segment (`urlunparse`). -/
def joinparams (path params : Str) : Str :=
  if params ≠ [] then path ++ ';' :: params else path

/-- `urllib.parse.urlunparse`. -/
def urlunparse (p : ParseResult) : Str :=
  urlunsplit p.scheme p.netloc (joinparams p.path p.params) p.query p.fragment

/-- `STRIP_QS` from `build_area_feeds.py`: tracking query parameters to
drop. -/
def STRIP_QS : List Str :=
  [pyStr "utm_source", pyStr "utm_medium", pyStr "utm_campaign",
   pyStr "utm_term", pyStr "utm_content", pyStr "utm_id", pyStr "fbclid",
   pyStr "gclid", pyStr "mc_cid", pyStr "mc_eid", pyStr "igshid",
   pyStr "si", pyStr "ref", pyStr "ref_src"]

/-- `canon_url` from `build_area_feeds.py`: parse; pass through unchanged
when there is no scheme (or parsing raises); otherwise drop deny-listed
query parameters (case-insensitively) and the fragment, and reassemble. -/
def canon_url (u : Str) : Str :=
  match urlparseE u [] with
  | .error _ => u
  | .ok p =>
      if p.scheme = [] then u
      else
        let q := (parse_qsl p.query).filter fun kv => pyLower kv.1 ∉ STRIP_QS
        urlunparse ⟨p.scheme, p.netloc, p.path, p.params, urlencode q, []⟩

/-- `segments[1:-1] = filter(None, segments[1:-1])`: drop empty interior
segments, keep the first and last. -/
def midFilterTail : List Str → List Str
  | [] => []
  | [y] => [y]
  | y :: rest => if y = [] then midFilterTail rest else y :: midFilterTail rest

/-- See `midFilterTail`. -/
def midFilter : List Str → List Str
  | [] => []
  | [x] => [x]
  | x :: rest => x :: midFilterTail rest

/-- The segment-resolution loop of `urljoin` (`'..'` pops, `'.'` is
skipped, `IndexError` on popping an empty list is ignored). -/
def resolveSegs (acc : List Str) : List Str → List Str
  | [] => acc
  | seg :: rest =>
      if seg = pyStr ".." then resolveSegs acc.dropLast rest
      else if seg = pyStr "." then resolveSegs acc rest
      else resolveSegs (acc ++ [seg]) rest

/-- `urllib.parse.urljoin` (CPython 3.11).  Parse errors (unbalanced
IPv6 brackets) propagate, as the Python exception would. -/
def urljoinE (base url : Str) : Except Unit Str :=
  if base = [] then .ok url
  else if url = [] then .ok base
  else match urlparseE base [] with
  | .error e => .error e
  | .ok b =>
      match urlparseE url b.scheme with
      | .error e => .error e
      | .ok p =>
          if p.scheme ≠ b.scheme ∨ p.scheme ∉ usesRelative then .ok url
          else if p.scheme ∈ usesNetloc ∧ p.netloc ≠ [] then .ok (urlunparse p)
          else
            let netloc := if p.scheme ∈ usesNetloc then b.netloc else p.netloc
            if p.path = [] ∧ p.params = [] then
              let query := if p.query = [] then b.query else p.query
              .ok (urlunparse ⟨p.scheme, netloc, b.path, b.params, query, p.fragment⟩)
            else
              let bparts0 := pySplit '/' b.path
              let bparts := if bparts0.getLast? ≠ some [] then bparts0.dropLast else bparts0
              let segments :=
                if p.path.take 1 = pyStr "/" then pySplit '/' p.path
                else midFilter (bparts ++ pySplit '/' p.path)
              let resolved := resolveSegs [] segments
              let resolved2 :=
                if segments.getLast? = some (pyStr ".") ∨ segments.getLast? = some (pyStr "..")
                then resolved ++ [[]] else resolved
              let joined := pyJoin (pyStr "/") resolved2
              let path2 := if joined = [] then pyStr "/" else joined
              .ok (urlunparse ⟨p.scheme, netloc, path2, p.params, p.query, p.fragment⟩)

/-- A Python `str.strip()` whitespace character (ASCII fragment; the
strings the scripts strip are ASCII-spaced). -/
def isPyWs (c : Char) : Bool :=
  c == ' ' || c == '\t' || c == '\n' || c == '\r' ||
  c.toNat == 0x0B || c.toNat == 0x0C

/-- Python `str.strip()` (ASCII-whitespace fragment). -/
def pyStrip (s : Str) : Str :=
  ((s.dropWhile isPyWs).reverse.dropWhile isPyWs).reverse

/-- `abs_url` from `build_area_feeds.py`: `None`/empty is absent,
otherwise join against the base, strip whitespace and canonicalize. -/
def abs_url (base : Str) (maybe_rel : Option Str) : Except Unit (Option Str) :=
  match maybe_rel with
  | none => .ok none
  | some r =>
      if r = [] then .ok none
      else match urljoinE base (pyStrip r) with
        | .error e => .error e
        | .ok full => .ok (some (canon_url full))

/-- The domain-specific path patterns of `pick_links`, in source order. -/
def patternsFor (host : Str) : List Str :=
  (if substrOf (pyStr "nanowerk.com") host then [pyStr "/news2/"] else []) ++
  (if substrOf (pyStr "phys.org") host then [pyStr "/news/"] else []) ++
  (if substrOf (pyStr "sciencedaily.com") host then [pyStr "/releases/"] else []) ++
  (if substrOf (pyStr "news.mit.edu") host || substrOf (pyStr "berkeley.edu") host
   then [pyStr "/20"] else [])

/-- The generic-fallback substrings of `pick_links`, in source order. -/
def genericKeys : List Str :=
  [pyStr "/news/", pyStr "/story/", pyStr "/releases/", pyStr "/202",
   pyStr "/20", pyStr "/blog/"]

/-- The `add` closure of `pick_links` acting on the `(seen, out)` state:
skip empty hrefs, unresolvable hrefs, cross-host links and canonical
duplicates; otherwise append the canonicalized absolute URL. -/
def addLink (base host : Str) (st : List Str × List Str) (href : Str) :
    Except Unit (List Str × List Str) :=
  if href = [] then .ok st
  else match abs_url base (some href) with
    | .error e => .error e
    | .ok none => .ok st
    | .ok (some full) =>
        match urlparseE full [] with
        | .error e => .error e
        | .ok pf =>
            if pf.netloc ≠ host then .ok st
            else
              let full2 := canon_url full
              if full2 ∈ st.1 then .ok st
              else .ok (full2 :: st.1, st.2 ++ [full2])

/-- One candidate loop of `pick_links`: `add` each href and return early
(flag `true`) as soon as `len(out) >= limit`. -/
def pickLoop (base host : Str) (limit : Nat) (st : List Str × List Str) :
    List Str → Except Unit (List Str × List Str × Bool)
  | [] => .ok (st.1, st.2, false)
  | href :: rest =>
      match addLink base host st href with
      | .error e => .error e
      | .ok st2 =>
          if st2.2.length ≥ limit then .ok (st2.1, st2.2, true)
          else pickLoop base host limit st2 rest

/-- The href streams the three rules of `pick_links` produce, in
priority order.  The document is modelled as the list of `href`
attribute values of its anchors in document order; a CSS selector
`a[href^=p]` is the anchors whose href starts with `p`. -/
def prefixCands (doc : List Str) (pfx : Option Str) : List Str :=
  match pfx with
  | some p => if p ≠ [] then doc.filter (fun h => p.isPrefixOf h) else []
  | none => []

/-- Candidates of the domain-pattern rule (one selector per pattern). -/
def patternCands (doc : List Str) (host : Str) : List Str :=
  (patternsFor host).flatMap fun p => doc.filter (fun h => p.isPrefixOf h)

/-- Candidates of the generic-fallback rule. -/
def genericCands (doc : List Str) : List Str :=
  doc.filter fun h => genericKeys.any fun k => substrOf k h

/-- `pick_links` from `build_area_feeds.py` over the anchor model: the
three rules run in order, sharing the seen/out state, each `add`
followed by the `len(out) >= limit` early return; the generic loop
`break`s and the final result is sliced to `limit`. -/
def pick_links (doc : List Str) (base : Str) (pfx : Option Str)
    (limit : Nat) : Except Unit (List Str) :=
  match urlparseE base [] with
  | .error e => .error e
  | .ok pb =>
      let host := pb.netloc
      match pickLoop base host limit ([], []) (prefixCands doc pfx) with
      | .error e => .error e
      | .ok (seen1, out1, early1) =>
          if early1 then .ok out1
          else match pickLoop base host limit (seen1, out1) (patternCands doc host) with
            | .error e => .error e
            | .ok (seen2, out2, early2) =>
                if early2 then .ok out2
                else match pickLoop base host limit (seen2, out2) (genericCands doc) with
                  | .error e => .error e
                  | .ok (_, out3, _) => .ok (out3.take limit)

/-- The single-stream reference semantics for `pick_links` (the spec's
description, amended): process the concatenation of the three rule
streams through the same dedup/limit loop and slice to `limit`. -/
def pickLinksCumulative (doc : List Str) (base : Str) (pfx : Option Str)
    (limit : Nat) : Except Unit (List Str) :=
  match urlparseE base [] with
  | .error e => .error e
  | .ok pb =>
      let host := pb.netloc
      match pickLoop base host limit ([], [])
          (prefixCands doc pfx ++ patternCands doc host ++ genericCands doc) with
      | .error e => .error e
      | .ok (_, out, _) => .ok (out.take limit)

/-! ## Article parsing model (BeautifulSoup abstracted) -/

/-- The aspects of a fetched article document that `parse_article`
queries.  BeautifulSoup itself is an external collaborator; a document
is modelled by the results of the queries the scripts make:
`find("meta", property=k)` returns the first meta tag whose `property`
attribute equals `k`; `s.title` / `get_text` results and the first
`<p>` lookups are abstract text fields. -/
structure MetaTag where
  prop : Option Str
  content : Option Str
deriving DecidableEq, Repr

/-- See `MetaTag`: the queried document model. -/
structure Soup where
  metas : List MetaTag
  titleText : Option Str
  hasArticle : Bool
  articleFirstP : Option Str
  docFirstP : Option Str
deriving DecidableEq, Repr

/-- `s.find("meta", property=k)`. -/
def findMetaProp (s : Soup) (k : Str) : Option MetaTag :=
  s.metas.find? fun m => m.prop == some k

/-- Python truthiness of an optional string. -/
def truthy : Option Str → Bool
  | none => false
  | some s => !s.isEmpty

/-- The `_CONTROL` regex class of `build_area_feeds.py` /
`utils_xml.py`. -/
def isCtrlChar (c : Char) : Bool :=
  c.toNat ≤ 0x08 || c.toNat == 0x0B || c.toNat == 0x0C ||
  (0x0E ≤ c.toNat && c.toNat ≤ 0x1F)

/-- `_clean`: drop the BOM and the `_CONTROL` characters (`None` and
`bytes` inputs do not arise in the modelled paths). -/
def pyClean (s : Str) : Str :=
  (s.filter fun c => c.toNat ≠ 0xFEFF).filter fun c => !isCtrlChar c

/-- `(s.find("article") or s).find("p")`, as abstract text. -/
def firstParagraph (s : Soup) : Str :=
  match (if s.hasArticle then s.articleFirstP else s.docFirstP) with
  | some p => p
  | none => []

/-- The `description` field computed by `parse_article` in
`build_area_feeds.py`: og:description if it has truthy content, else the
first paragraph; `_clean`-ed, falling back to the title when empty, then
truncated to 800 characters. -/
def parse_article_description (s : Soup) (title : Str) : Str :=
  let descr := match findMetaProp s (pyStr "og:description") with
    | some ogd =>
        if truthy ogd.content then pyStrip (ogd.content.getD [])
        else firstParagraph s
    | none => firstParagraph s
  let descr2 := if pyClean descr = [] then title else pyClean descr
  descr2.take 800

/-- The `description` field computed by `parse_article` in
`build_boston_dynamics_feed.py`: the og:description path is NOT
truncated; only the first-paragraph fallback is sliced to 400. -/
def bd_parse_article_description (s : Soup) : Str :=
  match findMetaProp s (pyStr "og:description") with
  | some ogd =>
      if truthy ogd.content then pyStrip (ogd.content.getD [])
      else (firstParagraph s).take 400
  | none => (firstParagraph s).take 400

/-! ## `s_key`: RFC-2822 `strptime` and the newest-first sort -/

/-- Digit test/value. -/
def digitVal (c : Char) : Option Nat :=
  if '0' ≤ c ∧ c ≤ '9' then some (c.toNat - 48) else none

/-- The abbreviated weekday names `%a` matches (C locale,
case-insensitive). -/
def dayAbbrs : List Str :=
  [pyStr "mon", pyStr "tue", pyStr "wed", pyStr "thu", pyStr "fri",
   pyStr "sat", pyStr "sun"]

/-- The abbreviated month names `%b` matches, 1-based. -/
def monthAbbrs : List Str :=
  [pyStr "jan", pyStr "feb", pyStr "mar", pyStr "apr", pyStr "may",
   pyStr "jun", pyStr "jul", pyStr "aug", pyStr "sep", pyStr "oct",
   pyStr "nov", pyStr "dec"]

/-- Consume `\s+` (the `_strptime` translation of a literal space in the
format; ASCII whitespace fragment of `re` `\s`). -/
def eatWs (s : Str) : Option Str :=
  let r := s.dropWhile isPyWs
  if r.length < s.length then some r else none

/-- Consume a 1-2 digit number matching `(hi2 selects the 2-digit
alternatives)`: two digits when the two-digit value passes `ok2`, else
one digit passing `ok1` (mirrors the ordered regex alternations of
`_strptime.TimeRE`). -/
def eatNum2 (ok2 : Nat → Bool) (ok1 : Nat → Bool) (s : Str) :
    Option (Nat × Str) :=
  match s with
  | c1 :: c2 :: rest =>
      match digitVal c1, digitVal c2 with
      | some d1, some d2 =>
          if ok2 (d1 * 10 + d2) then some (d1 * 10 + d2, rest)
          else if ok1 d1 then some (d1, c2 :: rest) else none
      | some d1, none => if ok1 d1 then some (d1, c2 :: rest) else none
      | _, _ => none
  | [c1] =>
      match digitVal c1 with
      | some d1 => if ok1 d1 then some (d1, []) else none
      | none => none
  | [] => none

/-- `%d`: `(3[01]|[12]\d|0[1-9]|[1-9])`. -/
def eatDay (s : Str) : Option (Nat × Str) :=
  eatNum2 (fun v => 1 ≤ v && v ≤ 31) (fun v => 1 ≤ v) s

/-- `%H`: `(2[0-3]|[0-1]\d|\d)`. -/
def eatHour (s : Str) : Option (Nat × Str) :=
  eatNum2 (fun v => v ≤ 23) (fun _ => true) s

/-- `%M`: `([0-5]\d|\d)`. -/
def eatMin (s : Str) : Option (Nat × Str) :=
  eatNum2 (fun v => v ≤ 59) (fun _ => true) s

/-- `%S`: `(6[0-1]|[0-5]\d|\d)`. -/
def eatSec (s : Str) : Option (Nat × Str) :=
  eatNum2 (fun v => v ≤ 61) (fun _ => true) s

/-- `%Y`: exactly four digits. -/
def eatYear (s : Str) : Option (Nat × Str) :=
  match s with
  | c1 :: c2 :: c3 :: c4 :: rest =>
      match digitVal c1, digitVal c2, digitVal c3, digitVal c4 with
      | some d1, some d2, some d3, some d4 =>
          some (((d1 * 10 + d2) * 10 + d3) * 10 + d4, rest)
      | _, _, _, _ => none
  | _ => none

/-- `%z` after the sign: `\d\d:?[0-5]\d(:?[0-5]\d(\.\d{1,6})?)?`;
returns the absolute offset in microseconds. -/
def eatZBody (s : Str) : Option (Nat × Str) :=
  match s with
  | c1 :: c2 :: rest =>
      match digitVal c1, digitVal c2 with
      | some h1, some h2 =>
          let hh := h1 * 10 + h2
          let rest2 := if rest.take 1 = pyStr ":" then rest.drop 1 else rest
          match rest2 with
          | m1 :: m2 :: rest3 =>
              match digitVal m1, digitVal m2 with
              | some e1, some e2 =>
                  if e1 ≤ 5 then
                    let mm := e1 * 10 + e2
                    let rest4 := if rest3.take 1 = pyStr ":" then rest3.drop 1 else rest3
                    let secPart : Option (Nat × Str) :=
                      match rest4 with
                      | s1 :: s2 :: rest5 =>
                          match digitVal s1, digitVal s2 with
                          | some f1, some f2 =>
                              if f1 ≤ 5 then
                                let ss := f1 * 10 + f2
                                match rest5 with
                                | '.' :: rest6 =>
                                    let digs := rest6.takeWhile (fun c => (digitVal c).isSome)
                                    if 1 ≤ digs.length ∧ digs.length ≤ 6 then
                                      let frac := (digs.foldl (fun a c => a * 10 + ((digitVal c).getD 0)) 0) *
                                        (10 ^ (6 - digs.length))
                                      some (ss * 1000000 + frac, rest6.drop digs.length)
                                    else some (ss * 1000000, '.' :: rest6)
                                | _ => some (ss * 1000000, rest5)
                              else none
                          | _, _ => none
                      | _ => none
                    match secPart with
                    | some (us, restf) =>
                        some ((hh * 60 + mm) * 60000000 + us, restf)
                    | none => some ((hh * 60 + mm) * 60000000, rest4)
                  else none
              | _, _ => none
          | _ => none
      | _, _ => none
  | _ => none

/-- `%z`: a signed offset or a literal (case-sensitive) `Z`; returns the
offset in microseconds. -/
def eatZ (s : Str) : Option (Int × Str) :=
  match s with
  | 'Z' :: rest => some (0, rest)
  | '+' :: rest => (eatZBody rest).map fun p => ((p.1 : Int), p.2)
  | '-' :: rest => (eatZBody rest).map fun p => (-(p.1 : Int), p.2)
  | _ => none

/-- Days in a month of a (proleptic Gregorian) year. -/
def daysInMonth (y m : Nat) : Nat :=
  if m = 2 then
    if y % 4 = 0 ∧ (y % 100 ≠ 0 ∨ y % 400 = 0) then 29 else 28
  else if m = 4 ∨ m = 6 ∨ m = 9 ∨ m = 11 then 30 else 31

/-- Days before the first of month `m` (1-based) in year `y`. -/
def daysBeforeMonth (y m : Nat) : Nat :=
  (List.range (m - 1)).foldl (fun acc i => acc + daysInMonth y (i + 1)) 0

/-- Days from 0001-01-01 to the given date (`datetime.toordinal() - 1`). -/
def daysFromMin (y m d : Nat) : Nat :=
  365 * (y - 1) + (y - 1) / 4 - (y - 1) / 100 + (y - 1) / 400 +
    daysBeforeMonth y m + (d - 1)

/-- `datetime.strptime(s, "%a, %d %b %Y %H:%M:%S %z")` followed by the
checks the `datetime`/`timezone` constructors make, yielding the
instant as microseconds relative to `datetime.min` at UTC (the value
aware datetimes compare by). -/
def parseRFC2822 (s : Str) : Option Int :=
  if (pyLower (s.take 3)) ∈ dayAbbrs then
    match s.drop 3 with
    | ',' :: r1 =>
        (eatWs r1).bind fun r2 =>
        (eatDay r2).bind fun dr =>
        (eatWs dr.2).bind fun r4 =>
        (monthAbbrs.indexOf? (pyLower (r4.take 3))).bind fun mIdx =>
        (eatWs (r4.drop 3)).bind fun r5 =>
        (eatYear r5).bind fun yr =>
        (eatWs yr.2).bind fun r7 =>
        (eatHour r7).bind fun hr =>
        (match hr.2 with | ':' :: r9 => some r9 | _ => none).bind fun r9 =>
        (eatMin r9).bind fun mn =>
        (match mn.2 with | ':' :: r11 => some r11 | _ => none).bind fun r11 =>
        (eatSec r11).bind fun sc =>
        (eatWs sc.2).bind fun r13 =>
        (eatZ r13).bind fun oz =>
        if oz.2 = [] ∧ 1 ≤ yr.1 ∧ 1 ≤ dr.1 ∧ dr.1 ≤ daysInMonth yr.1 (mIdx + 1) ∧
            sc.1 ≤ 59 ∧ oz.1.natAbs < 86400000000 then
          some ((((((daysFromMin yr.1 (mIdx + 1) dr.1) * 24 + hr.1) * 60 +
            mn.1) * 60 + sc.1 : Nat) : Int) * 1000000 - oz.1)
        else none
    | _ => none
  else none

/-- `x.get("pubDate","")` then `strptime`, with `datetime.min` (tagged
UTC, instant 0 in this scale) on any failure. -/
def s_key (x : Item) : Int :=
  match x.pubDate with
  | none => 0
  | some s => (parseRFC2822 s).getD 0

/-- `pubDate` parsed as the sort key, `none` when absent/unparseable. -/
def parsePub (x : Item) : Option Int := x.pubDate.bind parseRFC2822

/-- Stable insertion into a descending run: the new element goes before
the first element whose key is not greater. -/
def insortDesc (key : Item → Int) (x : Item) : List Item → List Item
  | [] => [x]
  | y :: ys =>
      if key y ≤ key x then x :: y :: ys else y :: insortDesc key x ys

/-- `list.sort(key=key, reverse=True)`: Python's sort is stable, and a
stable descending-by-key sort is unique, so it is modelled by stable
insertion sort with the matching comparator. -/
def pySortDesc (key : Item → Int) : List Item → List Item
  | [] => []
  | x :: xs => insortDesc key x (pySortDesc key xs)

/-! ## Feed serializers and XML well-formedness -/

/-- One character of `html.escape(s, quote=True)`.  The Python function
is a chain of `str.replace` calls (`&` first); since no replacement
output contains a later target, the chain equals this single pass. -/
def escapeChar (c : Char) : Str :=
  if c = '&' then pyStr "&amp;"
  else if c = '<' then pyStr "&lt;"
  else if c = '>' then pyStr "&gt;"
  else if c = '"' then pyStr "&quot;"
  else if c = '\'' then pyStr "&#x27;"
  else [c]

/-- `html.escape(s, quote=True)`. -/
def htmlEscape (s : Str) : Str := s.flatMap escapeChar

/-- `xml_text` from `build_area_feeds.py`: escape the `_clean`-ed text. -/
def xml_text (s : Str) : Str := htmlEscape (pyClean s)

/-- The `<item>` lines `build_rss` emits for one record. -/
def rss_item_parts (it : Item) : List Str :=
  [pyStr "    <item>",
   pyStr "      <title>" ++ xml_text it.title ++ pyStr "</title>",
   pyStr "      <link>" ++ xml_text it.link ++ pyStr "</link>",
   pyStr "      <guid isPermaLink=\"true\">" ++ xml_text it.guid ++ pyStr "</guid>",
   pyStr "      <description>" ++ xml_text it.description ++ pyStr "</description>"] ++
  (if truthy it.pubDate then
    [pyStr "      <pubDate>" ++ xml_text (it.pubDate.getD []) ++ pyStr "</pubDate>"]
   else []) ++
  (if truthy it.image then
    [pyStr "      <enclosure url=\"" ++ xml_text (it.image.getD []) ++
     pyStr "\" type=\"" ++ xml_text (guess_mime (it.image.getD []) (pyStr "image/jpeg")) ++
     pyStr "\" />"]
   else []) ++
  (if truthy it.video then
    [pyStr "      <enclosure url=\"" ++ xml_text (it.video.getD []) ++
     pyStr "\" type=\"" ++ xml_text (guess_mime (it.video.getD []) (pyStr "video/mp4")) ++
     pyStr "\" />"]
   else []) ++
  (if truthy it.category then
    [pyStr "      <category>" ++ xml_text (it.category.getD []) ++ pyStr "</category>"]
   else []) ++
  [pyStr "    </item>"]

/-- `build_rss` from `build_area_feeds.py`; `now_rfc` (the
`lastBuildDate` value, emitted unescaped) is passed explicitly instead
of reading the clock. -/
def build_rss (items : List Item) (title home_url now_rfc : Str) : Str :=
  pyJoin (pyStr "\n")
    ([pyStr "<?xml version=\"1.0\" encoding=\"UTF-8\"?>",
      pyStr "<rss version=\"2.0\">",
      pyStr "  <channel>",
      pyStr "    <title>" ++ xml_text title ++ pyStr "</title>",
      pyStr "    <link>" ++ xml_text home_url ++ pyStr "</link>",
      pyStr "    <description>" ++
        xml_text (pyStr "Aggregated feed generated by 4thWave AI.") ++
        pyStr "</description>",
      pyStr "    <language>en-us</language>",
      pyStr "    <lastBuildDate>" ++ now_rfc ++ pyStr "</lastBuildDate>"] ++
     items.flatMap rss_item_parts ++
     [pyStr "  </channel>", pyStr "</rss>"])

/-- The `<entry>` lines `build_atom` emits for one record. -/
def atom_entry_parts (it : Item) : List Str :=
  [pyStr "  <entry>",
   pyStr "    <title>" ++ xml_text it.title ++ pyStr "</title>",
   pyStr "    <link href=\"" ++ xml_text it.link ++ pyStr "\"/>",
   pyStr "    <id>" ++ xml_text it.guid ++ pyStr "</id>",
   pyStr "    <summary type=\"text\">" ++ xml_text it.description ++ pyStr "</summary>"] ++
  (if truthy it.pubDate then
    [pyStr "    <updated>" ++ xml_text (it.pubDate.getD []) ++ pyStr "</updated>"]
   else []) ++
  [pyStr "  </entry>"]

/-- `build_atom` from `build_area_feeds.py` (`now_rfc` passed in). -/
def build_atom (items : List Item) (title self_url home_url feed_id now_rfc : Str) : Str :=
  pyJoin (pyStr "\n")
    ([pyStr "<?xml version=\"1.0\" encoding=\"UTF-8\"?>",
      pyStr "<feed xmlns=\"http://www.w3.org/2005/Atom\">",
      pyStr "  <title>" ++ xml_text title ++ pyStr "</title>",
      pyStr "  <link href=\"" ++ xml_text home_url ++ pyStr "\"/>",
      pyStr "  <link rel=\"self\" href=\"" ++ xml_text self_url ++ pyStr "\"/>",
      pyStr "  <id>" ++ xml_text feed_id ++ pyStr "</id>",
      pyStr "  <updated>" ++ now_rfc ++ pyStr "</updated>"] ++
     items.flatMap atom_entry_parts ++
     [pyStr "</feed>"])

/-- The `<item>` lines the Boston Dynamics `build_rss` emits: title,
link and guid go through `html.escape` (no `_clean`), but the
description is spliced into a raw CDATA section and the pubDate is
emitted verbatim. -/
def bd_rss_item_parts (it : Item) : List Str :=
  [pyStr "    <item>",
   pyStr "      <title>" ++ htmlEscape it.title ++ pyStr "</title>",
   pyStr "      <link>" ++ htmlEscape it.link ++ pyStr "</link>",
   pyStr "      <guid isPermaLink=\"true\">" ++ htmlEscape it.guid ++ pyStr "</guid>",
   pyStr "      <description><![CDATA[" ++ it.description ++ pyStr "]]></description>"] ++
  (if truthy it.pubDate then
    [pyStr "      <pubDate>" ++ it.pubDate.getD [] ++ pyStr "</pubDate>"]
   else []) ++
  [pyStr "    </item>"]

/-- `build_rss` from `build_boston_dynamics_feed.py` (`now_rfc` passed
in; the channel header is fixed text). -/
def bd_build_rss (items : List Item) (now_rfc : Str) : Str :=
  pyJoin (pyStr "\n")
    ([pyStr "<?xml version=\"1.0\" encoding=\"UTF-8\"?>",
      pyStr "<rss version=\"2.0\">",
      pyStr "  <channel>",
      pyStr "    <title>Boston Dynamics Blog — Unofficial RSS</title>",
      pyStr "    <link>https://bostondynamics.com/blog/</link>",
      pyStr "    <description>Unofficial feed generated for convenience. Source: Boston Dynamics Blog.</description>",
      pyStr "    <language>en-us</language>",
      pyStr "    <lastBuildDate>" ++ now_rfc ++ pyStr "</lastBuildDate>"] ++
     items.flatMap bd_rss_item_parts ++
     [pyStr "  </channel>", pyStr "</rss>"])

/-- A character the XML 1.0 `Char` production admits (surrogates cannot
occur in `Char`). -/
def validXmlChar (c : Char) : Bool :=
  let n := c.toNat
  n == 0x9 || n == 0xA || n == 0xD || (0x20 ≤ n && n ≤ 0xD7FF) ||
  (0xE000 ≤ n && n ≤ 0xFFFD) || (0x10000 ≤ n && n ≤ 0x10FFFF)

/-- XML whitespace. -/
def xmlWs (c : Char) : Bool :=
  c == ' ' || c == '\t' || c == '\n' || c == '\r'

/-- XML name start character (ASCII fragment; the scanner is used on
documents with ASCII markup names). -/
def xnameStart (c : Char) : Bool :=
  ('a' ≤ c && c ≤ 'z') || ('A' ≤ c && c ≤ 'Z') || c == '_' || c == ':'

/-- XML name character (ASCII fragment). -/
def xnameChar (c : Char) : Bool :=
  xnameStart c || ('0' ≤ c && c ≤ '9') || c == '.' || c == '-'

/-- Is `buf` (the text between `&` and `;`) a reference expat accepts
with no DTD: one of the five predefined entities or a character
reference denoting a valid XML character? -/
def xmlRefOk (buf : Str) : Bool :=
  buf = pyStr "amp" || buf = pyStr "lt" || buf = pyStr "gt" ||
  buf = pyStr "quot" || buf = pyStr "apos" ||
  (match buf with
   | '#' :: 'x' :: ds =>
       ds ≠ [] && ds.all (fun c => (hexVal c).isSome) &&
       validXmlChar (Char.ofNat (ds.foldl (fun a c => a * 16 + ((hexVal c).getD 0)) 0 % 0x110000)) &&
       ds.foldl (fun a c => a * 16 + ((hexVal c).getD 0)) 0 < 0x110000
   | '#' :: ds =>
       ds ≠ [] && ds.all (fun c => (digitVal c).isSome) &&
       validXmlChar (Char.ofNat (ds.foldl (fun a c => a * 10 + ((digitVal c).getD 0)) 0 % 0x110000)) &&
       ds.foldl (fun a c => a * 10 + ((digitVal c).getD 0)) 0 < 0x110000
   | _ => false)

/-- Scanner mode: where in the markup the cursor stands. -/
inductive XMode where
  | text (brk : Nat)
  | tagStart
  | openTag (name : Str)
  | inTag (name : Str)
  | attrName (tag : Str)
  | attrEq (tag : Str)
  | attrQuote (tag : Str)
  | attrVal (tag : Str) (q : Char)
  | attrAfter (tag : Str)
  | slash (name : Str)
  | closeTag (name : Str)
  | closeEnd (name : Str)
  | pi (sawQ : Bool)
  | bang (buf : Str)
  | comment (dashes : Nat)
  | cdata (brk : Nat)
  | ref (ctx : Option (Str × Char)) (buf : Str)
deriving DecidableEq, Repr

/-- Scanner state: mode, stack of open element names, whether a root
element has been seen. -/
structure XState where
  mode : XMode
  stack : List Str
  root : Bool
deriving DecidableEq, Repr

/-- One step of the well-formedness scanner.  It accepts the XML 1.0
well-formedness fragment expat enforces on documents without DOCTYPEs:
balanced tags, quoted attributes, no `<` in text or attribute values,
only predefined/character references, no literal `]]>` in character
data, valid characters everywhere, exactly one root. -/
def xstep (st : XState) (c : Char) : Option XState :=
  if !validXmlChar c then none else
  match st.mode with
  | .text brk =>
      if c = '<' then some { st with mode := .tagStart }
      else if st.stack = [] then
        if xmlWs c then some { st with mode := .text 0 } else none
      else if c = '&' then some { st with mode := .ref none [] }
      else if c = ']' then some { st with mode := .text (min (brk + 1) 2) }
      else if c = '>' ∧ brk ≥ 2 then none
      else some { st with mode := .text 0 }
  | .tagStart =>
      if c = '/' then some { st with mode := .closeTag [] }
      else if c = '?' then some { st with mode := .pi false }
      else if c = '!' then some { st with mode := .bang [] }
      else if xnameStart c then
        if st.stack = [] ∧ st.root then none
        else some { st with mode := .openTag [c] }
      else none
  | .openTag name =>
      if xnameChar c then some { st with mode := .openTag (name ++ [c]) }
      else if xmlWs c then some { st with mode := .inTag name }
      else if c = '>' then some ⟨.text 0, name :: st.stack, true⟩
      else if c = '/' then some { st with mode := .slash name }
      else none
  | .inTag name =>
      if xmlWs c then some st
      else if c = '>' then some ⟨.text 0, name :: st.stack, true⟩
      else if c = '/' then some { st with mode := .slash name }
      else if xnameStart c then some { st with mode := .attrName name }
      else none
  | .attrName tag =>
      if xnameChar c then some st
      else if c = '=' then some { st with mode := .attrQuote tag }
      else if xmlWs c then some { st with mode := .attrEq tag }
      else none
  | .attrEq tag =>
      if xmlWs c then some st
      else if c = '=' then some { st with mode := .attrQuote tag }
      else none
  | .attrQuote tag =>
      if xmlWs c then some st
      else if c = '"' ∨ c = '\'' then some { st with mode := .attrVal tag c }
      else none
  | .attrVal tag q =>
      if c = q then some { st with mode := .attrAfter tag }
      else if c = '<' then none
      else if c = '&' then some { st with mode := .ref (some (tag, q)) [] }
      else some st
  | .attrAfter tag =>
      if xmlWs c then some { st with mode := .inTag tag }
      else if c = '>' then some ⟨.text 0, tag :: st.stack, true⟩
      else if c = '/' then some { st with mode := .slash tag }
      else none
  | .slash _ =>
      if c = '>' then some ⟨.text 0, st.stack, st.root || st.stack.isEmpty⟩
      else none
  | .closeTag name =>
      if xnameChar c then some { st with mode := .closeTag (name ++ [c]) }
      else if xmlWs c ∧ name ≠ [] then some { st with mode := .closeEnd name }
      else if c = '>' then
        match st.stack with
        | top :: rest => if top = name then some ⟨.text 0, rest, st.root⟩ else none
        | [] => none
      else none
  | .closeEnd name =>
      if xmlWs c then some st
      else if c = '>' then
        match st.stack with
        | top :: rest => if top = name then some ⟨.text 0, rest, st.root⟩ else none
        | [] => none
      else none
  | .pi sawQ =>
      if c = '>' ∧ sawQ then some { st with mode := .text 0 }
      else some { st with mode := .pi (c = '?') }
  | .bang buf =>
      let nb := buf ++ [c]
      if nb = pyStr "[CDATA[" then
        if st.stack = [] then none else some { st with mode := .cdata 0 }
      else if nb.isPrefixOf (pyStr "[CDATA[") then some { st with mode := .bang nb }
      else if nb = pyStr "--" then some { st with mode := .comment 0 }
      else if nb = pyStr "-" then some { st with mode := .bang nb }
      else none
  | .comment d =>
      if c = '-' then
        if d = 2 then none else some { st with mode := .comment (d + 1) }
      else if d = 2 then
        if c = '>' then some { st with mode := .text 0 } else none
      else some { st with mode := .comment 0 }
  | .cdata brk =>
      if c = ']' then some { st with mode := .cdata (min (brk + 1) 2) }
      else if c = '>' ∧ brk = 2 then some { st with mode := .text 0 }
      else some { st with mode := .cdata 0 }
  | .ref ctx buf =>
      if c = ';' then
        if xmlRefOk buf then
          some { st with mode := match ctx with
            | none => .text 0
            | some (t, q) => .attrVal t q }
        else none
      else if buf.length ≥ 8 then none
      else if xnameChar c ∨ c = '#' then some { st with mode := .ref ctx (buf ++ [c]) }
      else none

/-- Run the scanner over a string. -/
def xmlScan (st : XState) : Str → Option XState
  | [] => some st
  | c :: rest =>
      match xstep st c with
      | none => none
      | some st2 => xmlScan st2 rest

/-- The initial scanner state. -/
def xmlInit : XState := ⟨.text 0, [], false⟩

/-- Does the scanner accept a final state? -/
def xmlAccept (st : XState) : Bool :=
  (match st.mode with | .text _ => true | _ => false) && st.stack.isEmpty && st.root

/-- Well-formedness of a document: the scanner consumes it entirely and
ends outside markup with all elements closed and one root seen. -/
def xmlWF (doc : Str) : Bool :=
  match xmlScan xmlInit doc with
  | some st => xmlAccept st
  | none => false

/-! ## Theorems -/

set_option maxRecDepth 8000
theorem dedupGo_sublist (seen : List Str) (l : List Item) :
    (dedupGo seen l).Sublist l := by
  induction l generalizing seen with
  | nil => simp [dedupGo]
  | cons it rest ih =>
      simp only [dedupGo]
      split
      · exact (ih seen).trans (List.sublist_cons_self it rest)
      · exact (ih (it.guid :: seen)).cons₂ it

theorem dedupGo_filter (seen : List Str) (l : List Item) (g : Str) :
    (dedupGo seen l).filter (fun it => it.guid = g) =
      if g ∈ seen then [] else (l.filter (fun it => it.guid = g)).take 1 := by
  induction l generalizing seen with
  | nil => simp [dedupGo]
  | cons it rest ih =>
      simp only [dedupGo]
      by_cases hs : it.guid ∈ seen
      · rw [if_pos hs, ih seen]
        by_cases hg : it.guid = g
        · subst hg
          rw [if_pos hs, if_pos hs]
        · rw [List.filter_cons_of_neg (by simp [hg])]
      · rw [if_neg hs]
        by_cases hg : it.guid = g
        · subst hg
          rw [List.filter_cons_of_pos (by simp), ih,
            if_pos (List.mem_cons_self _ _), if_neg hs,
            List.filter_cons_of_pos (by simp)]
          simp
        · rw [List.filter_cons_of_neg (by simp [hg]), ih,
            List.filter_cons_of_neg (by simp [hg])]
          by_cases hgs : g ∈ seen
          · rw [if_pos (List.mem_cons_of_mem _ hgs), if_pos hgs]
          · rw [if_neg (by
              simp only [List.mem_cons, not_or]
              exact ⟨fun h => hg h.symm, hgs⟩), if_neg hgs]

theorem dedupGo_idem (seen : List Str) (l : List Item) :
    dedupGo seen (dedupGo seen l) = dedupGo seen l := by
  induction l generalizing seen with
  | nil => simp [dedupGo]
  | cons it rest ih =>
      simp only [dedupGo]
      split
      · exact ih seen
      · simp only [dedupGo]
        split
        · exact absurd (by assumption) (by assumption)
        · rw [ih]

/-- C5: the dedup-by-guid pass keeps exactly the first occurrence of each
guid in input order (for every guid, the output's items with that guid are
the first such item of the input), the output is a sublist of the input
(stable), and the pass is idempotent. -/
theorem dedupByGuid_spec (l : List Item) :
    (dedupByGuid l).Sublist l ∧
    (∀ g : Str, (dedupByGuid l).filter (fun it => it.guid = g) =
        (l.filter (fun it => it.guid = g)).take 1) ∧
    dedupByGuid (dedupByGuid l) = dedupByGuid l := by
  refine ⟨dedupGo_sublist [] l, ?_, dedupGo_idem [] l⟩
  intro g
  have h := dedupGo_filter [] l g
  simpa using h


theorem mimeScan_of_none (table : List (Str × Str)) (ul dflt : Str)
    (h : ∀ p ∈ table, substrOf p.1 ul = false) :
    mimeScan table ul dflt = dflt := by
  induction table with
  | nil => rfl
  | cons p rest ih =>
      cases p with
      | mk ext mt =>
          simp only [mimeScan]
          rw [h (ext, mt) (List.mem_cons_self _ _), if_neg (by simp)]
          exact ih fun q hq => h q (List.mem_cons_of_mem _ hq)

theorem mimeScan_of_hit (table : List (Str × Str)) (ul dflt : Str)
    (i : Nat) (hi : i < table.length)
    (hhit : substrOf (table.get ⟨i, hi⟩).1 ul = true)
    (hmiss : ∀ j (hj : j < i),
      substrOf (table.get ⟨j, by omega⟩).1 ul = false) :
    mimeScan table ul dflt = (table.get ⟨i, hi⟩).2 := by
  induction table generalizing i with
  | nil => exact absurd hi (by simp)
  | cons p rest ih =>
      cases p with
      | mk ext mt =>
          simp only [mimeScan]
          cases i with
          | zero =>
              simp only [List.get] at hhit ⊢
              rw [if_pos hhit]
          | succ i2 =>
              have h0 := hmiss 0 (Nat.succ_pos i2)
              simp only [List.get] at h0 hhit ⊢
              rw [if_neg (by simp [h0])]
              exact ih i2 (by simpa using hi) hhit
                (fun j hj => hmiss (j + 1) (by omega))

/-- C9 counterexample: the URL `https://a/x.jpg/clip.mp4` has file extension
`.mp4` (it even ends with it), yet the emitted MIME type is `image/jpeg`,
because `guess_mime` looks for the extension tokens as substrings anywhere
in the URL, in table order, and `.jpg` occurs in the path. -/
theorem guess_mime_not_by_extension :
    List.isSuffixOf (pyStr ".mp4") (pyStr "https://a/x.jpg/clip.mp4") = true ∧
    guess_mime (pyStr "https://a/x.jpg/clip.mp4") (pyStr "video/mp4") =
      pyStr "image/jpeg" ∧
    pyStr "image/jpeg" ≠ pyStr "video/mp4" := by
  refine ⟨by decide, by decide, by decide⟩

/-- C9 (amended): the MIME type is chosen by scanning the lower-cased URL
for the first extension token of the fixed table occurring as a substring
(`.jpg`, `.jpeg`, `.png`, `.gif`, `.webp`, `.mp4`, `.webm`, `.mov`,
`.m4v`, `.avi`, `.mkv`, in that order) — not by the URL's trailing file
extension — and falls back to the caller-supplied default (`image/jpeg`
for images, `video/mp4` for videos at both call sites) when no token
occurs. -/
theorem guess_mime_spec (u dflt : Str) :
    ((∀ p ∈ mimeTable, substrOf p.1 (pyLower u) = false) →
      guess_mime u dflt = dflt) ∧
    (∀ i (hi : i < mimeTable.length),
      substrOf (mimeTable.get ⟨i, hi⟩).1 (pyLower u) = true →
      (∀ j (hj : j < i), substrOf (mimeTable.get ⟨j, by omega⟩).1 (pyLower u) = false) →
      guess_mime u dflt = (mimeTable.get ⟨i, hi⟩).2) := by
  constructor
  · intro h
    exact mimeScan_of_none mimeTable (pyLower u) dflt h
  · intro i hi hhit hmiss
    exact mimeScan_of_hit mimeTable (pyLower u) dflt i hi hhit hmiss

/-- Witness for `guess_mime_spec`: a `.png` URL takes the third table entry
(both hypothesis kinds discharged concretely), and an extensionless URL
takes the default. -/
theorem guess_mime_spec_witness :
    guess_mime (pyStr "https://a/shot.PNG?x=1") (pyStr "image/jpeg") =
      pyStr "image/png" ∧
    guess_mime (pyStr "https://a/page") (pyStr "image/jpeg") =
      pyStr "image/jpeg" := by
  constructor
  · exact (guess_mime_spec (pyStr "https://a/shot.PNG?x=1") (pyStr "image/jpeg")).2
      2 (by decide) (by decide) (by decide)
  · exact (guess_mime_spec (pyStr "https://a/page") (pyStr "image/jpeg")).1
      (by decide)

theorem char_toNat_ofNat {n : Nat} (h : n.isValidChar) : (Char.ofNat n).toNat = n := by
  have hlt : n < 2^32 := by
    rcases h with h1 | ⟨h2a, h2b⟩
    · omega
    · omega
  simp only [Char.ofNat, h, dif_pos, Char.ofNatAux, Char.toNat, UInt32.ofNat',
    UInt32.toNat, BitVec.toNat_ofNatLt]

theorem char_ofNat_toNat (c : Char) : Char.ofNat c.toNat = c := by
  apply Char.ext
  apply UInt32.ext
  exact char_toNat_ofNat c.valid

theorem utf8Decode_cons1 (b : Nat) (r : List Nat) (h : b < 0x80) :
    utf8Decode (b :: r) = Char.ofNat b :: utf8Decode r := by
  rw [utf8Decode.eq_def]
  simp only []
  rw [if_pos h]

theorem utf8Decode_cons2 (b b2 : Nat) (r : List Nat)
    (h : 0xC2 ≤ b ∧ b ≤ 0xDF) (h2 : 0x80 ≤ b2 ∧ b2 ≤ 0xBF) :
    utf8Decode (b :: b2 :: r) =
      Char.ofNat ((b - 0xC0) * 64 + (b2 - 0x80)) :: utf8Decode r := by
  rw [utf8Decode.eq_def]
  simp only []
  rw [if_neg (by omega), if_pos h, if_pos h2]

theorem utf8Decode_cons3 (b b2 b3 : Nat) (r : List Nat)
    (h : 0xE0 ≤ b ∧ b ≤ 0xEF)
    (h2 : 0x80 ≤ b2 ∧ b2 ≤ 0xBF)
    (h2a : b = 0xE0 → 0xA0 ≤ b2) (h2b : b = 0xED → b2 ≤ 0x9F)
    (h3 : 0x80 ≤ b3 ∧ b3 ≤ 0xBF) :
    utf8Decode (b :: b2 :: b3 :: r) =
      Char.ofNat ((b - 0xE0) * 4096 + (b2 - 0x80) * 64 + (b3 - 0x80)) ::
        utf8Decode r := by
  have hcond : (if b = 0xE0 then 0xA0 ≤ b2 ∧ b2 ≤ 0xBF
      else if b = 0xED then 0x80 ≤ b2 ∧ b2 ≤ 0x9F
      else 0x80 ≤ b2 ∧ b2 ≤ 0xBF) := by
    by_cases hb : b = 0xE0
    · rw [if_pos hb]
      exact ⟨h2a hb, h2.2⟩
    · rw [if_neg hb]
      by_cases hb2 : b = 0xED
      · rw [if_pos hb2]
        exact ⟨h2.1, h2b hb2⟩
      · rw [if_neg hb2]
        exact h2
  rw [utf8Decode.eq_def]
  simp only []
  rw [if_neg (by omega), if_neg (by omega), if_pos h, if_pos hcond, if_pos h3]

theorem utf8Decode_cons4 (b b2 b3 b4 : Nat) (r : List Nat)
    (h : 0xF0 ≤ b ∧ b ≤ 0xF4)
    (h2 : 0x80 ≤ b2 ∧ b2 ≤ 0xBF)
    (h2a : b = 0xF0 → 0x90 ≤ b2) (h2b : b = 0xF4 → b2 ≤ 0x8F)
    (h3 : 0x80 ≤ b3 ∧ b3 ≤ 0xBF) (h4 : 0x80 ≤ b4 ∧ b4 ≤ 0xBF) :
    utf8Decode (b :: b2 :: b3 :: b4 :: r) =
      Char.ofNat ((b - 0xF0) * 0x40000 + (b2 - 0x80) * 4096 +
        (b3 - 0x80) * 64 + (b4 - 0x80)) :: utf8Decode r := by
  have hcond : (if b = 0xF0 then 0x90 ≤ b2 ∧ b2 ≤ 0xBF
      else if b = 0xF4 then 0x80 ≤ b2 ∧ b2 ≤ 0x8F
      else 0x80 ≤ b2 ∧ b2 ≤ 0xBF) := by
    by_cases hb : b = 0xF0
    · rw [if_pos hb]
      exact ⟨h2a hb, h2.2⟩
    · rw [if_neg hb]
      by_cases hb2 : b = 0xF4
      · rw [if_pos hb2]
        exact ⟨h2.1, h2b hb2⟩
      · rw [if_neg hb2]
        exact h2
  rw [utf8Decode.eq_def]
  simp only []
  rw [if_neg (by omega), if_neg (by omega), if_neg (by omega), if_pos h,
    if_pos hcond, if_pos h3, if_pos h4]

theorem utf8Decode_encodeChar (c : Char) (r : List Nat) :
    utf8Decode (utf8EncodeChar c ++ r) = c :: utf8Decode r := by
  have hv : c.toNat < 0xD800 ∨ (0xDFFF < c.toNat ∧ c.toNat < 0x110000) := c.valid
  simp only [utf8EncodeChar]
  by_cases h1 : c.toNat < 0x80
  · rw [if_pos h1]
    simp only [List.cons_append, List.nil_append]
    rw [utf8Decode_cons1 _ _ h1, char_ofNat_toNat]
  · rw [if_neg h1]
    by_cases h2 : c.toNat < 0x800
    · rw [if_pos h2]
      simp only [List.cons_append, List.nil_append]
      rw [utf8Decode_cons2 _ _ _ (by omega) (by omega)]
      congr 1
      have : (0xC0 + c.toNat / 64 - 0xC0) * 64 + (0x80 + c.toNat % 64 - 0x80)
          = c.toNat := by omega
      rw [this, char_ofNat_toNat]
    · rw [if_neg h2]
      by_cases h3 : c.toNat < 0x10000
      · rw [if_pos h3]
        simp only [List.cons_append, List.nil_append]
        rw [utf8Decode_cons3 _ _ _ _ (by omega) (by omega)
          (by intro he; omega) (by intro he; omega) (by omega)]
        congr 1
        have : (0xE0 + c.toNat / 4096 - 0xE0) * 4096 +
            (0x80 + c.toNat / 64 % 64 - 0x80) * 64 +
            (0x80 + c.toNat % 64 - 0x80) = c.toNat := by omega
        rw [this, char_ofNat_toNat]
      · rw [if_neg h3]
        simp only [List.cons_append, List.nil_append]
        rw [utf8Decode_cons4 _ _ _ _ _ (by omega) (by omega)
          (by intro he; omega) (by intro he; omega) (by omega) (by omega)]
        congr 1
        have : (0xF0 + c.toNat / 0x40000 - 0xF0) * 0x40000 +
            (0x80 + c.toNat / 4096 % 64 - 0x80) * 4096 +
            (0x80 + c.toNat / 64 % 64 - 0x80) * 64 +
            (0x80 + c.toNat % 64 - 0x80) = c.toNat := by omega
        rw [this, char_ofNat_toNat]

theorem utf8Decode_encode_append (s : Str) (r : List Nat) :
    utf8Decode (utf8Encode s ++ r) = s ++ utf8Decode r := by
  induction s with
  | nil => simp [utf8Encode]
  | cons c t ih =>
      simp only [utf8Encode, List.flatMap_cons, List.append_assoc]
      rw [utf8Decode_encodeChar]
      simp only [List.cons_append]
      exact congrArg (c :: ·) (ih)

theorem utf8Decode_encode (s : Str) : utf8Decode (utf8Encode s) = s := by
  have := utf8Decode_encode_append s []
  simpa [utf8Decode] using this

/-- Does `urlparse(u)` yield no scheme (or raise)?  The branch `canon_url`
checks with `if not p.scheme`. -/
def hasNoSchemeB (u : Str) : Bool :=
  match urlparseE u [] with
  | .ok p => p.scheme.isEmpty
  | .error _ => true

/-- C8: `canon_url` is total by construction (it is a Lean function and
the one modelled `ValueError` is caught by the `except` branch), and
whenever the parse yields no scheme — or raises — the input is returned
unchanged. -/
theorem canon_url_no_scheme (u : Str) (h : hasNoSchemeB u = true) :
    canon_url u = u := by
  unfold canon_url
  unfold hasNoSchemeB at h
  cases hp : urlparseE u [] with
  | error e => rfl
  | ok p =>
      rw [hp] at h
      simp only at h ⊢
      rw [if_pos (by simpa using h)]

/-- Witness for `canon_url_no_scheme`: a host-relative URL has no scheme
and passes through unchanged. -/
theorem canon_url_no_scheme_witness :
    canon_url (pyStr "example.com/path?utm_source=1#f") =
      pyStr "example.com/path?utm_source=1#f" :=
  canon_url_no_scheme _ (by decide)

/-- C2 counterexample: the scheme-less URLs `//a#x` and `//a#y` differ
only in their fragment, yet canonicalize differently — `canon_url`
returns scheme-less inputs unchanged, fragment included. -/
theorem canon_url_fragment_counterexample :
    canon_url (pyStr "//a" ++ '#' :: pyStr "x") ≠
      canon_url (pyStr "//a" ++ '#' :: pyStr "y") := by
  decide

/-- C10 counterexample: `canon_url` is not idempotent.  For
`http://////x` the first pass yields `http:////x` (empty netloc, path
`////x` reassembled without restoring `//`), and the second pass
collapses it further to `http://x`. -/
theorem canon_url_not_idempotent :
    canon_url (canon_url (pyStr "http://////x")) ≠
      canon_url (pyStr "http://////x") ∧
    canon_url (pyStr "http://////x") = pyStr "http:////x" ∧
    canon_url (pyStr "http:////x") = pyStr "http://x" := by
  refine ⟨by decide, by decide, by decide⟩

/-- The description text `parse_article` extracts before the
clean/fallback/truncate steps (og:description if truthy, else the first
paragraph of the `<article>` element or of the document). -/
def extractedDescr (s : Soup) : Str :=
  match findMetaProp s (pyStr "og:description") with
  | some ogd =>
      if truthy ogd.content then pyStrip (ogd.content.getD [])
      else firstParagraph s
  | none => firstParagraph s

/-- C7 counterexample: in the Boston Dynamics script the og:description
path is not truncated at all — a 900-character description survives
whole, exceeding the claimed 800-character cap (the script's own cap,
400, applies only to the first-paragraph fallback). -/
theorem bd_description_cap_counterexample :
    bd_parse_article_description
      ⟨[⟨some (pyStr "og:description"), some (List.replicate 900 'a')⟩],
        none, false, none, none⟩ = List.replicate 900 'a' ∧
    (List.replicate 900 'a' : Str).length = 900 := by
  constructor
  · unfold bd_parse_article_description
    have h : findMetaProp
        ⟨[⟨some (pyStr "og:description"), some (List.replicate 900 'a')⟩],
          none, false, none, none⟩ (pyStr "og:description") =
        some ⟨some (pyStr "og:description"), some (List.replicate 900 'a')⟩ := by
      decide
    rw [h]
    have ht : truthy (some (List.replicate 900 'a' : Str)) = true := by
      decide
    simp only [ht, if_true]
    decide
  · simp

/-- C7 (amended): in `build_area_feeds.py` the description never
exceeds 800 characters and falls back to the title (so it is empty only
when both the extracted text cleans to empty and the title is empty);
in `build_boston_dynamics_feed.py` the 400-character cap applies only
to the paragraph path and the og:description path is returned
uncapped. -/
theorem description_cap_spec (s : Soup) (title : Str) :
    (parse_article_description s title).length ≤ 800 ∧
    (parse_article_description s title = [] ↔
      (pyClean (extractedDescr s) = [] ∧ title.take 800 = [])) ∧
    ((findMetaProp s (pyStr "og:description") = none ∨
      ∃ m, findMetaProp s (pyStr "og:description") = some m ∧
        truthy m.content = false) →
      (bd_parse_article_description s).length ≤ 400) ∧
    (∀ m, findMetaProp s (pyStr "og:description") = some m →
      truthy m.content = true →
      bd_parse_article_description s = pyStrip (m.content.getD [])) := by
  have harea : parse_article_description s title =
      (if pyClean (extractedDescr s) = [] then title
       else pyClean (extractedDescr s)).take 800 := by
    unfold parse_article_description extractedDescr
    cases hm : findMetaProp s (pyStr "og:description") <;> simp
  refine ⟨?_, ?_, ?_, ?_⟩
  · rw [harea]
    exact List.length_take_le 800 _
  · rw [harea]
    by_cases he : pyClean (extractedDescr s) = []
    · simp [he]
    · simp only [if_neg he]
      constructor
      · intro h
        exact absurd (by
          cases hx : pyClean (extractedDescr s) with
          | nil => exact absurd hx he
          | cons a l => rw [hx] at h; simp at h) he
      · intro ⟨h1, _⟩
        exact absurd h1 he
  · intro h
    unfold bd_parse_article_description
    rcases h with h | ⟨m, hm, hf⟩
    · rw [h]
      exact List.length_take_le 400 _
    · rw [hm]
      simp only [hf, Bool.false_eq_true, if_false]
      exact List.length_take_le 400 _
  · intro m hm ht
    unfold bd_parse_article_description
    rw [hm]
    simp only [ht, if_true]

/-- Witness for `description_cap_spec`: a document with a truthy
og:description (fourth conjunct's hypotheses discharged concretely) and
one without (third conjunct). -/
theorem description_cap_spec_witness :
    bd_parse_article_description
      ⟨[⟨some (pyStr "og:description"), some (pyStr "short desc")⟩],
        none, false, none, none⟩ = pyStr "short desc" ∧
    (bd_parse_article_description ⟨[], none, true, some (pyStr "p text"), none⟩).length ≤ 400 ∧
    (parse_article_description ⟨[], none, false, none, none⟩ (pyStr "T")).length ≤ 800 := by
  refine ⟨?_, ?_, ?_⟩
  · rw [(description_cap_spec ⟨[⟨some (pyStr "og:description"), some (pyStr "short desc")⟩],
        none, false, none, none⟩ (pyStr "")).2.2.2
        ⟨some (pyStr "og:description"), some (pyStr "short desc")⟩ (by decide) (by decide)]
    decide
  · exact (description_cap_spec _ (pyStr "")).2.2.1 (Or.inl (by decide))
  · exact (description_cap_spec _ (pyStr "T")).1

theorem mem_insortDesc (key : Item → Int) (x a : Item) (l : List Item) :
    a ∈ insortDesc key x l ↔ a = x ∨ a ∈ l := by
  induction l with
  | nil => simp [insortDesc]
  | cons y ys ih =>
      simp only [insortDesc]
      split
      · simp
      · simp only [List.mem_cons, ih]
        tauto

theorem insortDesc_sorted (key : Item → Int) (x : Item) (l : List Item)
    (h : l.Pairwise (fun a b => key b ≤ key a)) :
    (insortDesc key x l).Pairwise (fun a b => key b ≤ key a) := by
  induction l with
  | nil => simp [insortDesc]
  | cons y ys ih =>
      simp only [insortDesc]
      rcases List.pairwise_cons.mp h with ⟨hy, hys⟩
      split
      · refine List.pairwise_cons.mpr ⟨?_, h⟩
        intro z hz
        rcases List.mem_cons.mp hz with rfl | hz2
        · assumption
        · exact le_trans (hy z hz2) (by assumption)
      · refine List.pairwise_cons.mpr ⟨?_, ih hys⟩
        intro z hz
        rcases (mem_insortDesc key x z ys).mp hz with rfl | hz2
        · omega
        · exact hy z hz2

theorem pySortDesc_sorted (key : Item → Int) (l : List Item) :
    (pySortDesc key l).Pairwise (fun a b => key b ≤ key a) := by
  induction l with
  | nil => simp [pySortDesc]
  | cons x xs ih => exact insortDesc_sorted key x _ ih

theorem insortDesc_filter (key : Item → Int) (x : Item) (l : List Item) (k : Int) :
    (insortDesc key x l).filter (fun a => key a = k) =
      if key x = k then x :: l.filter (fun a => key a = k)
      else l.filter (fun a => key a = k) := by
  induction l with
  | nil =>
      simp only [insortDesc, List.filter_cons, List.filter_nil]
      by_cases hx : key x = k
      · simp [hx]
      · simp [hx]
  | cons y ys ih =>
      simp only [insortDesc]
      split
      · simp only [List.filter_cons]
        by_cases hx : key x = k
        · simp [hx]
        · simp [hx]
      · rename_i hlt
        simp only [List.filter_cons, ih]
        by_cases hx : key x = k
        · have hy : ¬ key y = k := by omega
          simp [hx, hy]
        · by_cases hy : key y = k
          · simp [hx, hy]
          · simp [hx, hy]

theorem pySortDesc_filter (key : Item → Int) (l : List Item) (k : Int) :
    (pySortDesc key l).filter (fun a => key a = k) =
      l.filter (fun a => key a = k) := by
  induction l with
  | nil => simp [pySortDesc]
  | cons x xs ih =>
      simp only [pySortDesc]
      rw [insortDesc_filter, List.filter_cons]
      split
      · rw [if_pos (by simp_all), ih]
      · rw [if_neg (by simp_all), ih]

theorem s_key_of_undated (x : Item) (h : parsePub x = none) : s_key x = 0 := by
  unfold parsePub at h
  unfold s_key
  cases hp : x.pubDate with
  | none => rfl
  | some s =>
      rw [hp] at h
      rw [show ((some s).bind parseRFC2822) = parseRFC2822 s from rfl] at h
      show (parseRFC2822 s).getD 0 = 0
      rw [h]
      rfl

theorem s_key_of_dated (x : Item) (t : Int) (h : parsePub x = some t) :
    s_key x = t := by
  unfold parsePub at h
  unfold s_key
  cases hp : x.pubDate with
  | none => rw [hp] at h; cases h
  | some s =>
      rw [hp] at h
      rw [show ((some s).bind parseRFC2822) = parseRFC2822 s from rfl] at h
      show (parseRFC2822 s).getD 0 = t
      rw [h]
      rfl

/-- C4 (amended): after the newest-first sort, an item with an absent or
unparseable `pubDate` (sort key `datetime.min`, instant 0 here) never
precedes an item whose `pubDate` parses to an instant strictly later
than `datetime.min` UTC; and items with equal sort keys keep their
pre-sort relative order (the sort is stable).  The original claim fails
only for valid pubDates denoting instants at or before `datetime.min`
UTC, which share the minimum key (see the counterexample). -/
theorem s_key_sort_spec (l : List Item) :
    (∀ i j (hi : i < (pySortDesc s_key l).length)
       (hj : j < (pySortDesc s_key l).length), i < j →
       parsePub ((pySortDesc s_key l).get ⟨i, hi⟩) = none →
       ∀ t, parsePub ((pySortDesc s_key l).get ⟨j, hj⟩) = some t → t ≤ 0) ∧
    (∀ k : Int, (pySortDesc s_key l).filter (fun x => s_key x = k) =
       l.filter (fun x => s_key x = k)) := by
  constructor
  · intro i j hi hj hij hu t ht
    have hp := pySortDesc_sorted s_key l
    have hr := List.pairwise_iff_get.mp hp ⟨i, hi⟩ ⟨j, hj⟩ hij
    rw [s_key_of_undated _ hu, s_key_of_dated _ t ht] at hr
    exact hr
  · intro k
    exact pySortDesc_filter s_key l k

/-- C4 counterexample: `Mon, 01 Jan 0001 00:00:00 +0000` is accepted by
`strptime` and equals `datetime.min` at UTC — exactly the fallback key
of undated items.  With the undated item first in the input, the stable
sort keeps it ABOVE the validly dated item. -/
theorem s_key_sort_counterexample :
    pySortDesc s_key
      [⟨pyStr "u", pyStr "lu", pyStr "gu", pyStr "d", none, none, none, none⟩,
       ⟨pyStr "a", pyStr "la", pyStr "ga", pyStr "d",
         some (pyStr "Mon, 01 Jan 0001 00:00:00 +0000"), none, none, none⟩] =
      [⟨pyStr "u", pyStr "lu", pyStr "gu", pyStr "d", none, none, none, none⟩,
       ⟨pyStr "a", pyStr "la", pyStr "ga", pyStr "d",
         some (pyStr "Mon, 01 Jan 0001 00:00:00 +0000"), none, none, none⟩] ∧
    parsePub ⟨pyStr "u", pyStr "lu", pyStr "gu", pyStr "d", none, none, none, none⟩ = none ∧
    parsePub ⟨pyStr "a", pyStr "la", pyStr "ga", pyStr "d",
      some (pyStr "Mon, 01 Jan 0001 00:00:00 +0000"), none, none, none⟩ = some 0 := by
  refine ⟨by decide, by decide, by decide⟩

/-- Witness for `s_key_sort_spec`: an undated item sorted above a
year-one date with a +01:00 offset (instant strictly below
`datetime.min` UTC); the theorem instantiated at positions 0 < 1. -/
theorem s_key_sort_spec_witness :
    (-3600000000 : Int) ≤ 0 := by
  have h := (s_key_sort_spec
    [⟨pyStr "u", pyStr "lu", pyStr "gu", pyStr "d", none, none, none, none⟩,
     ⟨pyStr "a", pyStr "la", pyStr "ga", pyStr "d",
       some (pyStr "Mon, 01 Jan 0001 00:00:00 +0100"), none, none, none⟩]).1
    0 1 (by decide) (by decide) (by decide) (by decide)
    (-3600000000) (by decide)
  exact h

theorem char_eq_iff_toNat (a b : Char) : a = b ↔ a.toNat = b.toNat := by
  constructor
  · intro h
    rw [h]
  · intro h
    apply Char.ext
    apply UInt32.ext
    exact h

theorem char_toNat_ofNat_lt {b : Nat} (h : b < 0xD800) :
    (Char.ofNat b).toNat = b :=
  char_toNat_ofNat (Or.inl h)

theorem ALWAYS_SAFE_iff {b : Nat} : ALWAYS_SAFE b = true ↔
    ((65 ≤ b ∧ b ≤ 90) ∨ (97 ≤ b ∧ b ≤ 122) ∨ (48 ≤ b ∧ b ≤ 57) ∨
     b = 95 ∨ b = 46 ∨ b = 45 ∨ b = 126) := by
  simp only [ALWAYS_SAFE, Bool.or_eq_true, Bool.and_eq_true, decide_eq_true_eq,
    beq_iff_eq]
  omega

theorem ALWAYS_SAFE_facts {b : Nat} (h : ALWAYS_SAFE b = true) :
    0x2D ≤ b ∧ b ≤ 0x7E ∧ b ≠ 0x25 ∧ b ≠ 0x2B ∧ b ≠ 0x20 ∧ b ≠ 0x26 ∧
    b ≠ 0x3D ∧ b ≠ 0x23 ∧ b ≠ 0x3F ∧ b ≠ 0x3B ∧ b ≠ 0x2F := by
  simp only [ALWAYS_SAFE, Bool.or_eq_true, Bool.and_eq_true, decide_eq_true_eq,
    beq_iff_eq] at h
  omega

theorem char_le_iff (a b : Char) : a ≤ b ↔ a.toNat ≤ b.toNat := by
  show a.val ≤ b.val ↔ _
  rw [UInt32.le_def, BitVec.le_def]
  rfl

theorem hexUpper_toNat {n : Nat} (h : n < 16) :
    (hexUpper n).toNat = (if n < 10 then 48 + n else 55 + n) := by
  unfold hexUpper
  split
  · exact char_toNat_ofNat_lt (by omega)
  · exact char_toNat_ofNat_lt (by omega)

theorem hexVal_hexUpper {n : Nat} (h : n < 16) :
    hexVal (hexUpper n) = some n := by
  have ht := hexUpper_toNat h
  have h0 : ('0' : Char).toNat = 48 := by decide
  have h9 : ('9' : Char).toNat = 57 := by decide
  have ha : ('a' : Char).toNat = 97 := by decide
  have hf : ('f' : Char).toNat = 102 := by decide
  have hA : ('A' : Char).toNat = 65 := by decide
  have hF : ('F' : Char).toNat = 70 := by decide
  unfold hexVal
  by_cases h10 : n < 10
  · rw [if_pos h10] at ht
    rw [if_pos ⟨(char_le_iff _ _).mpr (by rw [h0, ht]; omega),
      (char_le_iff _ _).mpr (by rw [h9, ht]; omega)⟩]
    rw [ht]
    simp only [Option.some.injEq]
    omega
  · rw [if_neg h10] at ht
    rw [if_neg (by
      intro ⟨hc1, hc2⟩
      rw [char_le_iff _ _, h9, ht] at hc2
      omega)]
    rw [if_neg (by
      intro ⟨hc1, hc2⟩
      rw [char_le_iff _ _, ha, ht] at hc1
      omega)]
    rw [if_pos ⟨(char_le_iff _ _).mpr (by rw [hA, ht]; omega),
      (char_le_iff _ _).mpr (by rw [hF, ht]; omega)⟩]
    rw [ht]
    simp only [Option.some.injEq]
    omega

/-- Characters that can occur in `quote`/`quote_plus` output. -/
def qpGood (c : Char) : Bool :=
  ALWAYS_SAFE c.toNat || c == '+' || c == '%' || c == ' ' ||
  ('0' ≤ c && c ≤ '9') || ('A' ≤ c && c ≤ 'F')

theorem qpGood_facts {c : Char} (h : qpGood c = true) :
    isAsciiChar c = true ∧ c ≠ '&' ∧ c ≠ '=' ∧ c ≠ '#' ∧ c ≠ '?' ∧
    c ≠ '\t' ∧ c ≠ '\r' ∧ c ≠ '\n' ∧ c ≠ ';' ∧ c ≠ '/' := by
  simp only [qpGood, Bool.or_eq_true, beq_iff_eq, Bool.and_eq_true,
    decide_eq_true_eq] at h
  have hvals : c.toNat = ('+' : Char).toNat ∨ c.toNat = ('%' : Char).toNat ∨
      c.toNat = (' ' : Char).toNat ∨
      ((65 ≤ c.toNat ∧ c.toNat ≤ 90) ∨ (97 ≤ c.toNat ∧ c.toNat ≤ 122) ∨
        (48 ≤ c.toNat ∧ c.toNat ≤ 57) ∨ c.toNat = 95 ∨ c.toNat = 46 ∨
        c.toNat = 45 ∨ c.toNat = 126) ∨
      (('0':Char).toNat ≤ c.toNat ∧ c.toNat ≤ ('9':Char).toNat) ∨
      (('A':Char).toNat ≤ c.toNat ∧ c.toNat ≤ ('F':Char).toNat) := by
    rcases h with ((((hs | hp) | hq) | hsp) | ⟨h1, h2⟩) | ⟨h1, h2⟩
    · exact Or.inr (Or.inr (Or.inr (Or.inl (ALWAYS_SAFE_iff.mp hs))))
    · rw [hp]; exact Or.inl rfl
    · rw [hq]; exact Or.inr (Or.inl rfl)
    · rw [hsp]; exact Or.inr (Or.inr (Or.inl rfl))
    · rw [char_le_iff _ _] at h1 h2
      exact Or.inr (Or.inr (Or.inr (Or.inr (Or.inl ⟨h1, h2⟩))))
    · rw [char_le_iff _ _] at h1 h2
      exact Or.inr (Or.inr (Or.inr (Or.inr (Or.inr ⟨h1, h2⟩))))
  have hplus : ('+' : Char).toNat = 43 := by decide
  have hpct : ('%' : Char).toNat = 37 := by decide
  have hspace : (' ' : Char).toNat = 32 := by decide
  have h0 : ('0' : Char).toNat = 48 := by decide
  have h9 : ('9' : Char).toNat = 57 := by decide
  have hA : ('A' : Char).toNat = 65 := by decide
  have hF : ('F' : Char).toNat = 70 := by decide
  rw [hplus, hpct, hspace, h0, h9, hA, hF] at hvals
  have hamp : ('&' : Char).toNat = 38 := by decide
  have heq2 : ('=' : Char).toNat = 61 := by decide
  have hhash : ('#' : Char).toNat = 35 := by decide
  have hqm : ('?' : Char).toNat = 63 := by decide
  have htab : ('\t' : Char).toNat = 9 := by decide
  have hcr : ('\r' : Char).toNat = 13 := by decide
  have hlf : ('\n' : Char).toNat = 10 := by decide
  have hsemi : (';' : Char).toNat = 59 := by decide
  have hslash : ('/' : Char).toNat = 47 := by decide
  refine ⟨?_, ?_, ?_, ?_, ?_, ?_, ?_, ?_, ?_, ?_⟩
  · simp only [isAsciiChar, decide_eq_true_eq]
    omega
  · rw [Ne, char_eq_iff_toNat, hamp]; omega
  · rw [Ne, char_eq_iff_toNat, heq2]; omega
  · rw [Ne, char_eq_iff_toNat, hhash]; omega
  · rw [Ne, char_eq_iff_toNat, hqm]; omega
  · rw [Ne, char_eq_iff_toNat, htab]; omega
  · rw [Ne, char_eq_iff_toNat, hcr]; omega
  · rw [Ne, char_eq_iff_toNat, hlf]; omega
  · rw [Ne, char_eq_iff_toNat, hsemi]; omega
  · rw [Ne, char_eq_iff_toNat, hslash]; omega

/-- The safe sets `urlencode` passes to `quote`: empty or just the
space byte. -/
def safeOnlySpace (safe : List Nat) : Prop := ∀ b ∈ safe, b = 0x20

theorem qpGood_space : qpGood ' ' = true := by decide

theorem qpGood_plus : qpGood '+' = true := by decide

theorem qpGood_pct : qpGood '%' = true := by decide

theorem qpGood_hexUpper {n : Nat} (h : n < 16) : qpGood (hexUpper n) = true := by
  have ht := hexUpper_toNat h
  simp only [qpGood, Bool.or_eq_true, Bool.and_eq_true, decide_eq_true_eq,
    beq_iff_eq]
  by_cases h10 : n < 10
  · rw [if_pos h10] at ht
    refine Or.inl (Or.inr ⟨?_, ?_⟩)
    · rw [char_le_iff _ _, ht, show ('0':Char).toNat = 48 by decide]
      omega
    · rw [char_le_iff _ _, ht, show ('9':Char).toNat = 57 by decide]
      omega
  · rw [if_neg h10] at ht
    refine Or.inr ⟨?_, ?_⟩
    · rw [char_le_iff _ _, ht, show ('A':Char).toNat = 65 by decide]
      omega
    · rw [char_le_iff _ _, ht, show ('F':Char).toNat = 70 by decide]
      omega

theorem char_ne_of_toNat_ne {a b : Char} (h : a.toNat ≠ b.toNat) : a ≠ b := by
  intro he
  exact h (by rw [he])

theorem quoteByte_mem {safe : List Nat} (hsafe : safeOnlySpace safe)
    {b : Nat} (hb : b < 256) {c : Char} (hc : c ∈ quoteByte safe b) :
    qpGood c = true ∧ c ≠ '+' := by
  unfold quoteByte at hc
  split at hc
  · rename_i hsb
    simp only [List.mem_singleton] at hc
    subst hc
    rcases Bool.or_eq_true _ _ |>.mp hsb with has | hmem
    · have hf := ALWAYS_SAFE_iff.mp has
      have hlt : b < 0xD800 := by omega
      have htn : (Char.ofNat b).toNat = b := char_toNat_ofNat_lt hlt
      constructor
      · simp only [qpGood, Bool.or_eq_true]
        exact Or.inl (Or.inl (Or.inl (Or.inl (Or.inl (by rw [htn]; exact has)))))
      · apply char_ne_of_toNat_ne
        rw [htn, show ('+' : Char).toNat = 43 by decide]
        omega
    · have h32 : b = 0x20 := hsafe b (by simpa using hmem)
      subst h32
      have : (Char.ofNat 0x20) = ' ' := by decide
      rw [this]
      exact ⟨qpGood_space, by decide⟩
  · simp only [List.mem_cons, List.mem_singleton, List.mem_nil_iff, or_false] at hc
    rcases hc with rfl | rfl | rfl
    · exact ⟨qpGood_pct, by decide⟩
    · exact ⟨qpGood_hexUpper (by omega), by
        apply char_ne_of_toNat_ne
        rw [hexUpper_toNat (by omega), show ('+' : Char).toNat = 43 by decide]
        split <;> omega⟩
    · exact ⟨qpGood_hexUpper (by omega), by
        apply char_ne_of_toNat_ne
        rw [hexUpper_toNat (by omega), show ('+' : Char).toNat = 43 by decide]
        split <;> omega⟩

theorem utf8EncodeChar_lt256 (c : Char) : ∀ b ∈ utf8EncodeChar c, b < 256 := by
  intro b hb
  have hv : c.toNat < 0xD800 ∨ (0xDFFF < c.toNat ∧ c.toNat < 0x110000) := c.valid
  unfold utf8EncodeChar at hb
  simp only at hb
  by_cases h1 : c.toNat < 0x80
  · rw [if_pos h1] at hb
    simp only [List.mem_singleton] at hb
    omega
  · rw [if_neg h1] at hb
    by_cases h2 : c.toNat < 0x800
    · rw [if_pos h2] at hb
      simp only [List.mem_cons, List.not_mem_nil, or_false] at hb
      rcases hb with rfl | rfl <;> omega
    · rw [if_neg h2] at hb
      by_cases h3 : c.toNat < 0x10000
      · rw [if_pos h3] at hb
        simp only [List.mem_cons, List.not_mem_nil, or_false] at hb
        rcases hb with rfl | rfl | rfl <;> omega
      · rw [if_neg h3] at hb
        simp only [List.mem_cons, List.not_mem_nil, or_false] at hb
        rcases hb with rfl | rfl | rfl | rfl <;> omega

theorem splitOnce_of_not_mem (sep : Char) (s : Str) (h : sep ∉ s) :
    splitOnce sep s = none := by
  induction s with
  | nil => rfl
  | cons c t ih =>
      simp only [List.mem_cons, not_or] at h
      simp only [splitOnce, if_neg (fun hc : c = sep => h.1 hc.symm)]
      rw [ih h.2]

theorem splitOnce_none_not_mem (sep : Char) (s : Str)
    (h : splitOnce sep s = none) : sep ∉ s := by
  induction s with
  | nil => intro hm; cases hm
  | cons c t ih =>
      intro hm
      simp only [splitOnce] at h
      by_cases hc : c = sep
      · rw [if_pos hc] at h
        cases h
      · rw [if_neg hc] at h
        cases ht : splitOnce sep t with
        | some q =>
            rw [ht] at h
            cases h
        | none =>
            rcases List.mem_cons.mp hm with he | hm2
            · exact hc he.symm
            · exact ih ht hm2

theorem splitOnce_none_iff (sep : Char) (s : Str) :
    splitOnce sep s = none ↔ sep ∉ s :=
  ⟨splitOnce_none_not_mem sep s, splitOnce_of_not_mem sep s⟩

theorem pySplit_of_none {sep : Char} {s : Str} (h : splitOnce sep s = none) :
    pySplit sep s = [s] := by
  unfold pySplit
  cases s with
  | nil => rfl
  | cons c t => simp only [List.length_cons, pySplitGo, h]

theorem pySplit_of_some {sep : Char} {s a b : Str}
    (h : splitOnce sep s = some (a, b)) :
    pySplit sep s = a :: pySplit sep b := by
  unfold pySplit
  cases s with
  | nil => cases h
  | cons c t =>
      simp only [List.length_cons, pySplitGo, h]
      have hlen := splitOnce_snd_length sep (c :: t) a b h
      simp only [List.length_cons] at hlen
      exact congrArg (a :: ·)
        (pySplitGo_fuel sep t.length b.length b (by omega) (le_refl _))

theorem unquoteToBytes_cons_ne {c : Char} (t : Str) (hc : c ≠ '%') :
    unquoteToBytes (c :: t) = c.toNat :: unquoteToBytes t := by
  cases ht : splitOnce '%' t with
  | none =>
      have hct : splitOnce '%' (c :: t) = none := by
        simp only [splitOnce, if_neg hc, ht]
      unfold unquoteToBytes
      rw [pySplit_of_none hct, pySplit_of_none ht]
      simp [asciiBytes]
  | some p =>
      cases p with
      | mk a b =>
          have hct : splitOnce '%' (c :: t) = some (c :: a, b) := by
            simp only [splitOnce, if_neg hc, ht]
          unfold unquoteToBytes
          rw [pySplit_of_some hct, pySplit_of_some ht]
          simp [asciiBytes]

theorem hexVal_ne_pct {c : Char} {n : Nat} (h : hexVal c = some n) : c ≠ '%' := by
  intro he
  subst he
  rw [show hexVal '%' = none by decide] at h
  cases h

theorem unquoteToBytes_pct {c1 c2 : Char} {n1 n2 : Nat} (t : Str)
    (h1 : hexVal c1 = some n1) (h2 : hexVal c2 = some n2) :
    unquoteToBytes ('%' :: c1 :: c2 :: t) =
      (n1 * 16 + n2) :: unquoteToBytes t := by
  have hc1 := hexVal_ne_pct h1
  have hc2 := hexVal_ne_pct h2
  have hsp : splitOnce '%' ('%' :: c1 :: c2 :: t) = some ([], c1 :: c2 :: t) := by
    simp [splitOnce]
  cases ht : splitOnce '%' t with
  | none =>
      have hu : splitOnce '%' (c1 :: c2 :: t) = none := by
        simp only [splitOnce, if_neg hc1, if_neg hc2, ht]
      unfold unquoteToBytes
      rw [pySplit_of_some hsp, pySplit_of_none hu, pySplit_of_none ht]
      simp [asciiBytes, h1, h2]
  | some p =>
      cases p with
      | mk a b =>
          have hu : splitOnce '%' (c1 :: c2 :: t) = some (c1 :: c2 :: a, b) := by
            simp only [splitOnce, if_neg hc1, if_neg hc2, ht]
          unfold unquoteToBytes
          rw [pySplit_of_some hsp, pySplit_of_some hu, pySplit_of_some ht]
          simp [asciiBytes, h1, h2]

theorem unquoteToBytes_nil : unquoteToBytes [] = [] := by
  unfold unquoteToBytes
  rw [pySplit_of_none (show splitOnce '%' [] = none from rfl)]
  simp [asciiBytes]

theorem unquoteToBytes_quote {safe : List Nat} (hsafe : safeOnlySpace safe) :
    ∀ bs : List Nat, (∀ b ∈ bs, b < 256) →
    unquoteToBytes (bs.flatMap (quoteByte safe)) = bs := by
  intro bs
  induction bs with
  | nil =>
      intro _
      simpa using unquoteToBytes_nil
  | cons b rest ih =>
      intro hlt
      have hb : b < 256 := hlt b (List.mem_cons_self b rest)
      have hrest : ∀ x ∈ rest, x < 256 := fun x hx => hlt x (List.mem_cons_of_mem b hx)
      rw [List.flatMap_cons]
      by_cases hs : (ALWAYS_SAFE b || decide (b ∈ safe)) = true
      · have hq : quoteByte safe b = [Char.ofNat b] := by
          unfold quoteByte
          rw [if_pos hs]
        have hne : Char.ofNat b ≠ '%' := by
          apply char_ne_of_toNat_ne
          rw [char_toNat_ofNat_lt (by omega), show ('%' : Char).toNat = 37 by decide]
          rcases Bool.or_eq_true _ _ |>.mp hs with has | hmem
          · have := ALWAYS_SAFE_facts has
            omega
          · have := hsafe b (of_decide_eq_true hmem)
            omega
        rw [hq, List.singleton_append, unquoteToBytes_cons_ne _ hne,
          char_toNat_ofNat_lt (by omega), ih hrest]
      · have hq : quoteByte safe b = ['%', hexUpper (b / 16), hexUpper (b % 16)] := by
          unfold quoteByte
          rw [if_neg hs]
        have h1 := hexVal_hexUpper (show b / 16 < 16 by omega)
        have h2 := hexVal_hexUpper (show b % 16 < 16 by omega)
        rw [hq, show (['%', hexUpper (b / 16), hexUpper (b % 16)] ++
            rest.flatMap (quoteByte safe)) =
            '%' :: hexUpper (b / 16) :: hexUpper (b % 16) ::
            rest.flatMap (quoteByte safe) from rfl,
          unquoteToBytes_pct _ h1 h2, ih hrest]
        have hdm := Nat.div_add_mod b 16
        congr 1
        omega

theorem asciiRun_all {s : Str} (h : ∀ c ∈ s, isAsciiChar c = true) :
    asciiRun s = (s, []) := by
  induction s with
  | nil => rfl
  | cons c t ih =>
      simp only [asciiRun, if_pos (h c (List.mem_cons_self c t))]
      rw [ih fun x hx => h x (List.mem_cons_of_mem c hx)]

theorem unquoteGo_nil : unquoteGo [] = [] := by
  rw [unquoteGo.eq_def]

theorem unquoteGo_cons_ascii {c : Char} {t : Str} (hc : isAsciiChar c = true)
    (ht : ∀ x ∈ t, isAsciiChar x = true) :
    unquoteGo (c :: t) = utf8Decode (unquoteToBytes (c :: t)) := by
  rw [unquoteGo.eq_def]
  simp only []
  rw [if_pos hc, asciiRun_all ht, unquoteGo_nil]
  simp

theorem quote_chars {safe : List Nat} (hsafe : safeOnlySpace safe) (s : Str) :
    ∀ c ∈ quote safe s, qpGood c = true ∧ c ≠ '+' := by
  intro c hc
  unfold quote at hc
  rw [List.mem_flatMap] at hc
  obtain ⟨b, hb, hcb⟩ := hc
  have hb256 : b < 256 := by
    unfold utf8Encode at hb
    rw [List.mem_flatMap] at hb
    obtain ⟨ch, hch, hbch⟩ := hb
    exact utf8EncodeChar_lt256 ch b hbch
  exact quoteByte_mem hsafe hb256 hcb

theorem quoteByteChar_no_pct {safe : List Nat} (hsafe : safeOnlySpace safe)
    (c : Char) (h : '%' ∉ (utf8EncodeChar c).flatMap (quoteByte safe)) :
    (utf8EncodeChar c).flatMap (quoteByte safe) = [c] := by
  have hbyte : ∀ b ∈ utf8EncodeChar c,
      (ALWAYS_SAFE b || decide (b ∈ safe)) = true := by
    intro b hb
    by_contra hns
    apply h
    rw [List.mem_flatMap]
    refine ⟨b, hb, ?_⟩
    unfold quoteByte
    rw [if_neg hns]
    exact List.mem_cons_self _ _
  have hsafe2 : ∀ b ∈ utf8EncodeChar c, b ≤ 0x7E := by
    intro b hb
    rcases Bool.or_eq_true _ _ |>.mp (hbyte b hb) with has | hmem
    · exact (ALWAYS_SAFE_facts has).2.1
    · have := hsafe b (of_decide_eq_true hmem)
      omega
  have hclt : c.toNat < 0x80 := by
    by_contra hge
    push_neg at hge
    have hmem : (0xC0 + c.toNat / 64) ∈ utf8EncodeChar c ∨
        (0xE0 + c.toNat / 4096) ∈ utf8EncodeChar c ∨
        (0xF0 + c.toNat / 0x40000) ∈ utf8EncodeChar c := by
      unfold utf8EncodeChar
      simp only []
      rw [if_neg (by omega)]
      by_cases h2 : c.toNat < 0x800
      · rw [if_pos h2]
        exact Or.inl (List.mem_cons_self _ _)
      · rw [if_neg h2]
        by_cases h3 : c.toNat < 0x10000
        · rw [if_pos h3]
          exact Or.inr (Or.inl (List.mem_cons_self _ _))
        · rw [if_neg h3]
          exact Or.inr (Or.inr (List.mem_cons_self _ _))
    rcases hmem with hm | hm | hm
    · have := hsafe2 _ hm
      omega
    · have := hsafe2 _ hm
      omega
    · have := hsafe2 _ hm
      omega
  have henc : utf8EncodeChar c = [c.toNat] := by
    unfold utf8EncodeChar
    simp only []
    rw [if_pos hclt]
  rw [henc]
  simp only [List.flatMap_cons, List.flatMap_nil, List.append_nil]
  have hs := hbyte c.toNat (by rw [henc]; exact List.mem_cons_self _ _)
  unfold quoteByte
  rw [if_pos hs, char_ofNat_toNat]

theorem quote_cons (safe : List Nat) (c : Char) (t : Str) :
    quote safe (c :: t) =
      (utf8EncodeChar c).flatMap (quoteByte safe) ++ quote safe t := by
  unfold quote utf8Encode
  rw [List.flatMap_cons, List.flatMap_append]

theorem quote_no_pct {safe : List Nat} (hsafe : safeOnlySpace safe) :
    ∀ {s : Str}, '%' ∉ quote safe s → quote safe s = s := by
  intro s
  induction s with
  | nil =>
      intro _
      rfl
  | cons c t ih =>
      intro h
      rw [quote_cons] at h ⊢
      have h1 : '%' ∉ (utf8EncodeChar c).flatMap (quoteByte safe) :=
        fun hm => h (List.mem_append.mpr (Or.inl hm))
      have h2 : '%' ∉ quote safe t :=
        fun hm => h (List.mem_append.mpr (Or.inr hm))
      rw [quoteByteChar_no_pct hsafe c h1, ih h2]
      rfl

theorem unquote_quote {safe : List Nat} (hsafe : safeOnlySpace safe) (s : Str) :
    unquote (quote safe s) = s := by
  unfold unquote
  by_cases hp : '%' ∈ quote safe s
  · rw [if_pos hp]
    have hascii : ∀ c ∈ quote safe s, isAsciiChar c = true := by
      intro c hc
      exact (qpGood_facts (quote_chars hsafe s c hc).1).1
    have hbytes : ∀ b ∈ utf8Encode s, b < 256 := by
      intro b hb
      unfold utf8Encode at hb
      rw [List.mem_flatMap] at hb
      obtain ⟨ch, hch, hbch⟩ := hb
      exact utf8EncodeChar_lt256 ch b hbch
    obtain ⟨c, t, hq⟩ : ∃ c t, quote safe s = c :: t := by
      cases hq : quote safe s with
      | nil =>
          rw [hq] at hp
          cases hp
      | cons c t => exact ⟨c, t, rfl⟩
    have hc0 : isAsciiChar c = true :=
      hascii c (by rw [hq]; exact List.mem_cons_self c t)
    have ht0 : ∀ x ∈ t, isAsciiChar x = true :=
      fun x hx => hascii x (by rw [hq]; exact List.mem_cons_of_mem c hx)
    calc unquoteGo (quote safe s) = unquoteGo (c :: t) := by rw [hq]
      _ = utf8Decode (unquoteToBytes (c :: t)) := unquoteGo_cons_ascii hc0 ht0
      _ = utf8Decode (unquoteToBytes (quote safe s)) := by rw [hq]
      _ = s := by
          unfold quote
          rw [unquoteToBytes_quote hsafe _ hbytes, utf8Decode_encode]
  · rw [if_neg hp]
    exact quote_no_pct hsafe hp

theorem map_id_of_mem {α : Type} (f : α → α) :
    ∀ (l : List α), (∀ a ∈ l, f a = a) → l.map f = l := by
  intro l
  induction l with
  | nil =>
      intro _
      rfl
  | cons a t ih =>
      intro h
      rw [List.map_cons, h a (List.mem_cons_self a t),
        ih fun x hx => h x (List.mem_cons_of_mem a hx)]

theorem unquote_plus_quote_plus (s : Str) : unquote_plus (quote_plus s) = s := by
  unfold unquote_plus quote_plus
  by_cases hsp : ' ' ∈ s
  · rw [if_pos hsp]
    have hsafe : safeOnlySpace [0x20] := by
      intro b hb
      simpa using hb
    rw [List.map_map]
    have hmap : ∀ c ∈ quote [0x20] s,
        ((fun c => if c = '+' then ' ' else c) ∘
          fun c => if c = ' ' then '+' else c) c = c := by
      intro c hc
      simp only [Function.comp_apply]
      by_cases hcs : c = ' '
      · subst hcs
        decide
      · rw [if_neg hcs, if_neg (quote_chars hsafe s c hc).2]
    rw [map_id_of_mem _ _ hmap]
    exact unquote_quote hsafe s
  · rw [if_neg hsp]
    have hsafe : safeOnlySpace [] := fun b hb => absurd hb (List.not_mem_nil b)
    have hmap : ∀ c ∈ quote [] s,
        (fun c => if c = '+' then ' ' else c) c = c := by
      intro c hc
      show (if c = '+' then ' ' else c) = c
      rw [if_neg (quote_chars hsafe s c hc).2]
    rw [map_id_of_mem _ _ hmap]
    exact unquote_quote hsafe s

theorem quote_plus_chars {s : Str} {c : Char} (hc : c ∈ quote_plus s) :
    qpGood c = true := by
  unfold quote_plus at hc
  by_cases hsp : ' ' ∈ s
  · rw [if_pos hsp] at hc
    rw [List.mem_map] at hc
    obtain ⟨a, ha, hac⟩ := hc
    have hsafe : safeOnlySpace [0x20] := by
      intro b hb
      simpa using hb
    have hqa := (quote_chars hsafe s a ha).1
    by_cases has : a = ' '
    · rw [← hac]
      show qpGood (if a = ' ' then '+' else a) = true
      rw [if_pos has]
      exact qpGood_plus
    · rw [← hac]
      show qpGood (if a = ' ' then '+' else a) = true
      rw [if_neg has]
      exact hqa
  · rw [if_neg hsp] at hc
    have hsafe : safeOnlySpace [] := fun b hb => absurd hb (List.not_mem_nil b)
    exact (quote_chars hsafe s c hc).1

theorem splitOnce_some_decomp {sep : Char} :
    ∀ {s a b : Str}, splitOnce sep s = some (a, b) →
    s = a ++ sep :: b ∧ sep ∉ a := by
  intro s
  induction s with
  | nil =>
      intro a b h
      cases h
  | cons c t ih =>
      intro a b h
      simp only [splitOnce] at h
      by_cases hc : c = sep
      · rw [if_pos hc] at h
        cases h
        subst hc
        exact ⟨rfl, List.not_mem_nil _⟩
      · rw [if_neg hc] at h
        cases ht : splitOnce sep t with
        | none =>
            rw [ht] at h
            cases h
        | some p =>
            rw [ht] at h
            cases p with
            | mk a2 b2 =>
                cases h
                obtain ⟨he, hn⟩ := ih ht
                refine ⟨by rw [List.cons_append, ← he], ?_⟩
                intro hm
                rcases List.mem_cons.mp hm with h1 | h2
                · exact hc h1.symm
                · exact hn h2

theorem splitOnce_append {sep : Char} {p : Str} (r : Str) (hp : sep ∉ p) :
    splitOnce sep (p ++ sep :: r) = some (p, r) := by
  induction p with
  | nil => simp [splitOnce]
  | cons c t ih =>
      rw [List.cons_append]
      simp only [splitOnce]
      have hc : ¬ c = sep := by
        intro he
        exact hp (List.mem_cons.mpr (Or.inl he.symm))
      rw [if_neg hc, ih fun hm => hp (List.mem_cons_of_mem c hm)]

theorem pyJoin_ne_nil {sep : Str} {p : Str} (rest : List Str) (hp : p ≠ []) :
    pyJoin sep (p :: rest) ≠ [] := by
  cases rest with
  | nil => exact hp
  | cons q r =>
      show p ++ sep ++ pyJoin sep (q :: r) ≠ []
      intro h
      have hl := congrArg List.length h
      rw [List.length_append, List.length_append, List.length_nil] at hl
      have : p.length = 0 := by omega
      exact hp (List.length_eq_zero.mp this)

theorem pySplit_join (sep : Char) :
    ∀ (parts : List Str), parts ≠ [] → (∀ p ∈ parts, sep ∉ p) →
    pySplit sep (pyJoin [sep] parts) = parts := by
  intro parts
  induction parts with
  | nil =>
      intro h _
      exact absurd rfl h
  | cons p rest ih =>
      intro _ hf
      cases rest with
      | nil =>
          rw [show pyJoin [sep] [p] = p from rfl,
            pySplit_of_none (splitOnce_of_not_mem sep p
              (hf p (List.mem_cons_self p [])))]
      | cons q r =>
          rw [show pyJoin [sep] (p :: q :: r) =
              p ++ [sep] ++ pyJoin [sep] (q :: r) from rfl]
          rw [List.append_assoc]
          rw [show ([sep] ++ pyJoin [sep] (q :: r)) =
              sep :: pyJoin [sep] (q :: r) from rfl]
          rw [pySplit_of_some (splitOnce_append _
            (hf p (List.mem_cons_self p (q :: r))))]
          rw [ih (by simp) fun x hx => hf x (List.mem_cons_of_mem p hx)]

theorem filterMap_map_id {α β : Type} (f : α → β) (g : β → Option α)
    (h : ∀ a, g (f a) = some a) : ∀ l : List α, (l.map f).filterMap g = l := by
  intro l
  induction l with
  | nil => rfl
  | cons a t ih =>
      rw [List.map_cons, List.filterMap_cons, h a, ih]

theorem mem_pyJoin {sep : Str} {parts : List Str} {c : Char}
    (hc : c ∈ pyJoin sep parts) : c ∈ sep ∨ ∃ p ∈ parts, c ∈ p := by
  induction parts with
  | nil => cases hc
  | cons p rest ih =>
      cases rest with
      | nil =>
          rw [show pyJoin sep [p] = p from rfl] at hc
          exact Or.inr ⟨p, List.mem_cons_self p [], hc⟩
      | cons q r =>
          rw [show pyJoin sep (p :: q :: r) =
              p ++ sep ++ pyJoin sep (q :: r) from rfl] at hc
          rcases List.mem_append.mp hc with h1 | h2
          · rcases List.mem_append.mp h1 with ha | hb
            · exact Or.inr ⟨p, List.mem_cons_self _ _, ha⟩
            · exact Or.inl hb
          · rcases ih h2 with ha | ⟨x, hx, hcx⟩
            · exact Or.inl ha
            · exact Or.inr ⟨x, List.mem_cons_of_mem p hx, hcx⟩

/-- Characters that can occur in an `urlencode` result. -/
def queryGood (c : Char) : Bool := qpGood c || c == '&' || c == '='

theorem urlencode_chars (q : List (Str × Str)) :
    ∀ c ∈ urlencode q, queryGood c = true := by
  intro c hc
  unfold urlencode at hc
  rcases mem_pyJoin hc with hs | ⟨p, hp, hcp⟩
  · have hce : c = '&' := by
      simpa [pyStr] using hs
    rw [hce]
    decide
  · rw [List.mem_map] at hp
    obtain ⟨kv, hkv, hpe⟩ := hp
    rw [← hpe] at hcp
    rcases List.mem_append.mp hcp with h1 | h2
    · have := quote_plus_chars h1
      simp [queryGood, this]
    · rcases List.mem_cons.mp h2 with he | h3
      · rw [he]
        decide
      · have := quote_plus_chars h3
        simp [queryGood, this]

theorem queryGood_facts {c : Char} (h : queryGood c = true) :
    isAsciiChar c = true ∧ c ≠ '#' ∧ c ≠ '?' ∧ c ≠ '/' ∧
    c ≠ '\t' ∧ c ≠ '\r' ∧ c ≠ '\n' := by
  rcases Bool.or_eq_true _ _ |>.mp h with h1 | h2
  · rcases Bool.or_eq_true _ _ |>.mp h1 with hq | ha
    · have hf := qpGood_facts hq
      exact ⟨hf.1, hf.2.2.2.1, hf.2.2.2.2.1, hf.2.2.2.2.2.2.2.2.2,
        hf.2.2.2.2.2.1, hf.2.2.2.2.2.2.1, hf.2.2.2.2.2.2.2.1⟩
    · have hce : c = '&' := by
        simpa using ha
      subst hce
      refine ⟨by decide, by decide, by decide, by decide, by decide,
        by decide, by decide⟩
  · have hce : c = '=' := by
      simpa using h2
    subst hce
    refine ⟨by decide, by decide, by decide, by decide, by decide,
      by decide, by decide⟩

theorem parse_qsl_urlencode (q : List (Str × Str)) :
    parse_qsl (urlencode q) = q := by
  cases q with
  | nil => rfl
  | cons kv0 rest0 =>
      have hne : urlencode (kv0 :: rest0) ≠ [] := by
        unfold urlencode
        rw [List.map_cons]
        apply pyJoin_ne_nil
        intro h0
        have hl := congrArg List.length h0
        rw [List.length_append, List.length_cons, List.length_nil] at hl
        omega
      unfold parse_qsl
      rw [if_neg hne]
      have hfree : ∀ p ∈ (kv0 :: rest0).map
          (fun kv => quote_plus kv.1 ++ '=' :: quote_plus kv.2), '&' ∉ p := by
        intro p hp hm
        rw [List.mem_map] at hp
        obtain ⟨kv, hkv, hpe⟩ := hp
        rw [← hpe] at hm
        rcases List.mem_append.mp hm with h1 | h2
        · exact (qpGood_facts (quote_plus_chars h1)).2.1 rfl
        · rcases List.mem_cons.mp h2 with he | h3
          · cases he
          · exact (qpGood_facts (quote_plus_chars h3)).2.1 rfl
      have hparts : pySplit '&' (urlencode (kv0 :: rest0)) =
          (kv0 :: rest0).map fun kv => quote_plus kv.1 ++ '=' :: quote_plus kv.2 := by
        unfold urlencode
        exact pySplit_join '&' _ (by simp) hfree
      rw [hparts]
      refine filterMap_map_id _ _ (fun kv => ?_) _
      have hnv : quote_plus kv.1 ++ '=' :: quote_plus kv.2 ≠ [] := by
        intro h0
        have hl := congrArg List.length h0
        rw [List.length_append, List.length_cons, List.length_nil] at hl
        omega
      have hsp : splitOnce '=' (quote_plus kv.1 ++ '=' :: quote_plus kv.2) =
          some (quote_plus kv.1, quote_plus kv.2) :=
        splitOnce_append _ fun hm => (qpGood_facts (quote_plus_chars hm)).2.2.1 rfl
      simp only [if_neg hnv, hsp, unquote_plus_quote_plus]

/-- The query pairs `canon_url` keeps: the parsed pairs whose lower-cased
name is outside the deny-list. -/
def keptPairs (query : Str) : List (Str × Str) :=
  (parse_qsl query).filter fun kv => pyLower kv.1 ∉ STRIP_QS

/-- C2 (amended): when two URLs parse successfully with a non-empty scheme
and agree on scheme, netloc, path and params, and their queries keep the
same pairs after dropping deny-listed parameters (in particular when they
differ only in fragment or tracking parameters), `canon_url` maps them to
the same string; moreover the canonical query component decodes back to
exactly the kept pairs, in order, values (including blank ones) intact.
The original claim fails for scheme-less URLs, which are passed through
unchanged, fragment and all (`canon_url_fragment_counterexample`). -/
theorem canon_url_strip_spec (u1 u2 : Str) (p1 p2 : ParseResult)
    (h1 : urlparseE u1 [] = .ok p1) (h2 : urlparseE u2 [] = .ok p2)
    (hsne : p1.scheme ≠ [])
    (hs : p1.scheme = p2.scheme) (hn : p1.netloc = p2.netloc)
    (hp : p1.path = p2.path) (hpa : p1.params = p2.params)
    (hq : keptPairs p1.query = keptPairs p2.query) :
    canon_url u1 = canon_url u2 ∧
    parse_qsl (urlencode (keptPairs p1.query)) = keptPairs p1.query := by
  constructor
  · have hsne2 : p2.scheme ≠ [] := hs ▸ hsne
    have hq' : (parse_qsl p1.query).filter (fun kv => pyLower kv.1 ∉ STRIP_QS) =
        (parse_qsl p2.query).filter (fun kv => pyLower kv.1 ∉ STRIP_QS) := hq
    simp only [canon_url, h1, h2, if_neg hsne, if_neg hsne2]
    rw [hq', hs, hn, hp, hpa]
  · exact parse_qsl_urlencode _

theorem canon_url_strip_spec_witness :
    canon_url (pyStr "http://h/p?a=1&utm_source=x#frag") =
      canon_url (pyStr "http://h/p?a=1&utm_medium=y") ∧
    parse_qsl (urlencode (keptPairs (pyStr "a=1&utm_source=x"))) =
      keptPairs (pyStr "a=1&utm_source=x") :=
  canon_url_strip_spec _ _
    ⟨pyStr "http", pyStr "h", pyStr "/p", [], pyStr "a=1&utm_source=x",
      pyStr "frag"⟩
    ⟨pyStr "http", pyStr "h", pyStr "/p", [], pyStr "a=1&utm_medium=y", []⟩
    (by rfl) (by rfl) (by decide) (by decide) (by decide) (by decide)
    (by decide) (by decide)
